import Mathlib

/-!
# LOKI: the Ollama client and the detection loop

A shallow embedding of `internal/llm/ollama_client.go`, `cmd/main.go` and
`internal/audio/wakeword.go`.

* Go strings and byte streams are sequences of Unicode scalar values here
  (`String`, `List Char`), that is, valid UTF-8 text.
* The standard-library calls the client makes (`json.Marshal`,
  `http.NewRequest`, `json.Decoder.Decode`) are embedded by what they
  compute: the scanner and the decoder of `encoding/json` as a recursive
  descent over the text, `float64` values by the number token they are
  converted from, with the range check of `strconv.ParseFloat` on the exact
  decimal value.
* What the program cannot decide by itself is an explicit argument: the
  result of `http.Client.Do` and of the reads of the response stream
  (`Network`), the results of the transcriber, the LLM client and the
  listener that `main` calls (`Cycle`, `Session`), the results of the
  wake-word engine (`WakeEnv`).
* A function is embedded with what it does to the outside, as a list of
  events in the order of the statements that cause them, so that "exactly
  once", "before" and "not at all" are statements about that list.
-/

namespace Loki

/-! ## encoding/json: values -/

/-- A number token: `-? int (. frac)? ([eE] [+-]? exp)?`, kept by its digits. -/
structure NumLit where
  negative : Bool
  intDigits : List Char
  fracDigits : List Char
  expMark : Option Char
  expSign : Option Char
  expDigits : List Char
deriving DecidableEq, Repr

/-- A JSON value as the text denotes it; object members in textual order,
repeated keys included. -/
inductive JSON where
  | null
  | bool (b : Bool)
  | number (n : NumLit)
  | string (s : List Char)
  | array (elems : List JSON)
  | object (members : List (List Char × JSON))

/-- The values `encoding/json` stores into an `interface{}`: `nil`, `bool`,
`float64` (denoted by the token it was converted from), `string`,
`[]interface{}` and `map[string]interface{}`. -/
inductive GoValue where
  | nil
  | bool (b : Bool)
  | float64 (n : NumLit)
  | string (s : List Char)
  | slice (elems : List GoValue)
  | map (entries : List (List Char × GoValue))

/-- A Go `map[string]V`: at most one entry per key. -/
abbrev GoMap (V : Type) := List (List Char × V)

/-- The assignment `m[k] = v`. -/
def mapSet {V : Type} (k : List Char) (v : V) : GoMap V → GoMap V
  | [] => [(k, v)]
  | (k', v') :: rest => if k' = k then (k, v) :: rest else (k', v') :: mapSet k v rest

/-- The lookup `m[k]`, with its presence flag. -/
def mapGet {V : Type} (k : List Char) : GoMap V → Option V
  | [] => none
  | (k', v') :: rest => if k' = k then some v' else mapGet k rest

/-! ## encoding/json: the scanner (`scanner.go`) and the decoder (`decode.go`) -/

/-- Ways the scan of one value stops short. -/
inductive ScanError where
  | invalid
  | truncated
  | exhausted
deriving DecidableEq, Repr

/-- Go's `isSpace`. -/
def isSpace (c : Char) : Bool :=
  c = ' ' || c = '\t' || c = '\r' || c = '\n'

/-- Skipping of insignificant white space before a token. -/
def skipSpace : List Char → List Char
  | [] => []
  | c :: cs => if isSpace c then skipSpace cs else c :: cs

/-- A decimal digit. -/
def isDigit (c : Char) : Bool :=
  decide (48 ≤ c.toNat) && decide (c.toNat ≤ 57)

/-- The value of a hexadecimal digit. -/
def hexVal (c : Char) : Option Nat :=
  if 48 ≤ c.toNat ∧ c.toNat ≤ 57 then some (c.toNat - 48)
  else if 97 ≤ c.toNat ∧ c.toNat ≤ 102 then some (c.toNat - 87)
  else if 65 ≤ c.toNat ∧ c.toNat ≤ 70 then some (c.toNat - 55)
  else none

/-- One unit of a string token: a character, or a UTF-16 code unit written
as a four-digit escape. -/
inductive StrUnit where
  | lit (c : Char)
  | esc (u : Nat)
deriving DecidableEq, Repr

/-- The scanner states inside a string token (`stateInString`,
`stateInStringEsc`, `stateInStringEscU` and its successors). -/
inductive StrState where
  | normal
  | escape
  | hex (remaining : Nat) (acc : Nat)
deriving DecidableEq, Repr

/-- The character a one-letter escape stands for (`stateInStringEsc`). -/
def simpleEscape (c : Char) : Option Char :=
  if c = 'b' then some (Char.ofNat 8)
  else if c = 'f' then some (Char.ofNat 12)
  else if c = 'n' then some '\n'
  else if c = 'r' then some '\r'
  else if c = 't' then some '\t'
  else if c = '\\' ∨ c = '/' ∨ c = '"' then some c
  else none

/-- Scan of a string token after its opening quote: the units up to the
closing quote, and the text after it. -/
def scanString : StrState → List StrUnit → List Char →
    Except ScanError (List StrUnit × List Char)
  | _, _, [] => .error .truncated
  | .normal, acc, c :: cs =>
    if c = '"' then .ok (acc.reverse, cs)
    else if c = '\\' then scanString .escape acc cs
    else if c.toNat < 32 then .error .invalid
    else scanString .normal (.lit c :: acc) cs
  | .escape, acc, c :: cs =>
    if c = 'u' then scanString (.hex 3 0) acc cs
    else
      match simpleEscape c with
      | some ch => scanString .normal (.lit ch :: acc) cs
      | none => .error .invalid
  | .hex n v, acc, c :: cs =>
    match hexVal c with
    | none => .error .invalid
    | some d =>
      match n with
      | 0 => scanString .normal (.esc (16 * v + d) :: acc) cs
      | m + 1 => scanString (.hex m (16 * v + d)) acc cs

/-- The Unicode replacement character U+FFFD. -/
def replacementChar : Char := Char.ofNat 65533

/-- Go's `unquote` on the units of a token: a high surrogate escape directly
followed by a low surrogate escape is one character, any other surrogate
escape is U+FFFD.  The first argument is a high surrogate still waiting for
its partner. -/
def decodeUnits : Option Nat → List StrUnit → List Char
  | none, [] => []
  | some _, [] => [replacementChar]
  | none, .lit c :: rest => c :: decodeUnits none rest
  | some _, .lit c :: rest => replacementChar :: c :: decodeUnits none rest
  | none, .esc u :: rest =>
    if 55296 ≤ u ∧ u < 56320 then decodeUnits (some u) rest
    else if 56320 ≤ u ∧ u < 57344 then replacementChar :: decodeUnits none rest
    else Char.ofNat u :: decodeUnits none rest
  | some h, .esc u :: rest =>
    if 56320 ≤ u ∧ u < 57344 then
      Char.ofNat (65536 + (h - 55296) * 1024 + (u - 56320)) :: decodeUnits none rest
    else if 55296 ≤ u ∧ u < 56320 then replacementChar :: decodeUnits (some u) rest
    else replacementChar :: Char.ofNat u :: decodeUnits none rest

/-- Scan of a literal name after its first letter. -/
def scanLiteral : List Char → List Char → Except ScanError (List Char)
  | [], cs => .ok cs
  | _ :: _, [] => .error .truncated
  | e :: es, c :: cs => if c = e then scanLiteral es cs else .error .invalid

/-- At least one digit (`stateDot`, `stateESign`): the digits and the rest. -/
def scanDigits1 (cs : List Char) : Except ScanError (List Char × List Char) :=
  match cs with
  | [] => .error .truncated
  | c :: rest =>
    if isDigit c then .ok (c :: (rest.span isDigit).1, (rest.span isDigit).2)
    else .error .invalid

/-- The integer part (`state0`, `state1`): a lone `0`, or a nonzero digit and
more digits. -/
def scanInt (cs : List Char) : Except ScanError (List Char × List Char) :=
  match cs with
  | [] => .error .truncated
  | c :: rest =>
    if c = '0' then .ok ([c], rest)
    else if isDigit c then .ok (c :: (rest.span isDigit).1, (rest.span isDigit).2)
    else .error .invalid

/-- The optional exponent of a number token (`stateE`, `stateESign`,
`stateE0`). -/
def scanExp (neg : Bool) (i f : List Char) (cs : List Char) :
    Except ScanError (NumLit × List Char) :=
  match cs with
  | [] => .ok (⟨neg, i, f, none, none, []⟩, [])
  | c :: rest =>
    if c = 'e' ∨ c = 'E' then
      match rest with
      | [] => .error .truncated
      | s :: rest2 =>
        if s = '+' ∨ s = '-' then
          match scanDigits1 rest2 with
          | .error e => .error e
          | .ok (ds, rest3) => .ok (⟨neg, i, f, some c, some s, ds⟩, rest3)
        else
          match scanDigits1 (s :: rest2) with
          | .error e => .error e
          | .ok (ds, rest3) => .ok (⟨neg, i, f, some c, none, ds⟩, rest3)
    else .ok (⟨neg, i, f, none, none, []⟩, c :: rest)

/-- The optional fraction, then the exponent (`stateDot`, `stateDot0`). -/
def scanFrac (neg : Bool) (i : List Char) (cs : List Char) :
    Except ScanError (NumLit × List Char) :=
  match cs with
  | [] => .ok (⟨neg, i, [], none, none, []⟩, [])
  | c :: rest =>
    if c = '.' then
      match scanDigits1 rest with
      | .error e => .error e
      | .ok (ds, rest2) => scanExp neg i ds rest2
    else scanExp neg i [] (c :: rest)

/-- A number token (`stateNeg` onwards). -/
def scanNumber (cs : List Char) : Except ScanError (NumLit × List Char) :=
  match cs with
  | [] => .error .truncated
  | c :: rest =>
    if c = '-' then
      match scanInt rest with
      | .error e => .error e
      | .ok (i, rest2) => scanFrac true i rest2
    else
      match scanInt (c :: rest) with
      | .error e => .error e
      | .ok (i, rest2) => scanFrac false i rest2

/-- Go's `maxNestingDepth`. -/
def maxNestingDepth : Nat := 10000

/-- The check of `pushParseState`: the nesting depth after an opening
bracket exceeds the limit. -/
def exceeds (limit : Option Nat) (depth : Nat) : Bool :=
  match limit with
  | none => false
  | some l => decide (l < depth)

/-- A value that is not an array or an object, from its first character
`c`: a string, a number or one of the three literal names. -/
def parseScalar (c : Char) (rest : List Char) : Except ScanError (JSON × List Char) :=
  if c = '"' then
    match scanString .normal [] rest with
    | .error e => .error e
    | .ok (us, rest2) => .ok (.string (decodeUnits none us), rest2)
  else if c = '-' ∨ isDigit c then
    match scanNumber (c :: rest) with
    | .error e => .error e
    | .ok (n, rest2) => .ok (.number n, rest2)
  else if c = 't' then
    match scanLiteral ['r', 'u', 'e'] rest with
    | .error e => .error e
    | .ok rest2 => .ok (.bool true, rest2)
  else if c = 'f' then
    match scanLiteral ['a', 'l', 's', 'e'] rest with
    | .error e => .error e
    | .ok rest2 => .ok (.bool false, rest2)
  else if c = 'n' then
    match scanLiteral ['u', 'l', 'l'] rest with
    | .error e => .error e
    | .ok rest2 => .ok (.null, rest2)
  else .error .invalid

mutual
/-- One value at the head of the text (`stateBeginValue`), read under a
nesting limit, with `depth` brackets open around it: the value and the
text after it.  The first argument bounds the recursion. -/
def parseValue (limit : Option Nat) : Nat → Nat → List Char →
    Except ScanError (JSON × List Char)
  | 0, _, _ => .error .exhausted
  | fuel + 1, depth, cs =>
    match skipSpace cs with
    | [] => .error .truncated
    | c :: rest =>
      if c = '{' then
        if exceeds limit (depth + 1) then .error .invalid
        else
          match skipSpace rest with
          | [] => .error .truncated
          | c2 :: rest2 =>
            if c2 = '}' then .ok (.object [], rest2)
            else parseMembers limit fuel (depth + 1) (c2 :: rest2) []
      else if c = '[' then
        if exceeds limit (depth + 1) then .error .invalid
        else
          match skipSpace rest with
          | [] => .error .truncated
          | c2 :: rest2 =>
            if c2 = ']' then .ok (.array [], rest2)
            else parseElems limit fuel (depth + 1) (c2 :: rest2) []
      else parseScalar c rest
/-- The elements of an array from an element on, up to the closing
bracket; `acc` holds the elements read so far, last first. -/
def parseElems (limit : Option Nat) : Nat → Nat → List Char → List JSON →
    Except ScanError (JSON × List Char)
  | 0, _, _, _ => .error .exhausted
  | fuel + 1, depth, cs, acc =>
    match parseValue limit fuel depth cs with
    | .error e => .error e
    | .ok (v, rest) =>
      match skipSpace rest with
      | [] => .error .truncated
      | c :: rest2 =>
        if c = ',' then parseElems limit fuel depth rest2 (v :: acc)
        else if c = ']' then .ok (.array (v :: acc).reverse, rest2)
        else .error .invalid
/-- The members of an object from a key on, up to the closing brace. -/
def parseMembers (limit : Option Nat) : Nat → Nat → List Char →
    List (List Char × JSON) → Except ScanError (JSON × List Char)
  | 0, _, _, _ => .error .exhausted
  | fuel + 1, depth, cs, acc =>
    match skipSpace cs with
    | [] => .error .truncated
    | c :: rest =>
      if c = '"' then
        match scanString .normal [] rest with
        | .error e => .error e
        | .ok (us, rest2) =>
          match skipSpace rest2 with
          | [] => .error .truncated
          | c2 :: rest3 =>
            if c2 = ':' then
              match parseValue limit fuel depth rest3 with
              | .error e => .error e
              | .ok (v, rest4) =>
                match skipSpace rest4 with
                | [] => .error .truncated
                | c3 :: rest5 =>
                  if c3 = ',' then
                    parseMembers limit fuel depth rest5 ((decodeUnits none us, v) :: acc)
                  else if c3 = '}' then
                    .ok (.object ((decodeUnits none us, v) :: acc).reverse, rest5)
                  else .error .invalid
            else .error .invalid
      else .error .invalid
end

/-- The text of a number token. -/
def NumLit.text (n : NumLit) : List Char :=
  (if n.negative then ['-'] else []) ++ n.intDigits
    ++ (if n.fracDigits = [] then [] else '.' :: n.fracDigits)
    ++ n.expMark.toList ++ n.expSign.toList ++ n.expDigits

/-- The natural number a digit string denotes. -/
def digitsToNat (ds : List Char) : Nat :=
  ds.foldl (fun n c => 10 * n + (c.toNat - 48)) 0

/-- The least magnitude that rounds to infinity as a `float64`: half an ulp
above the largest finite value. -/
def float64Threshold : Nat := 2 ^ 1024 - 2 ^ 970

/-- The range check of `strconv.ParseFloat(s, 64)`, on the exact decimal
value `m * 10 ^ (e - f)`: it reaches the threshold.  Every range error of
`strconv` is one by this test; on a token of more than 800 significant
digits or with an exponent of 10000 and more `strconv` reads less than the
token says and may accept what this test refuses. -/
def NumLit.overflowsFloat64 (n : NumLit) : Bool :=
  let m := digitsToNat (n.intDigits ++ n.fracDigits)
  let e := digitsToNat n.expDigits
  let f := n.fracDigits.length
  if n.expSign = some '-' then decide (float64Threshold * 10 ^ (e + f) ≤ m)
  else if f ≤ e then decide (float64Threshold ≤ m * 10 ^ (e - f))
  else decide (float64Threshold * 10 ^ (f - e) ≤ m)

/-- The errors `Decoder.Decode` produces on its own account. -/
inductive DecodeError where
  | eof
  | unexpectedEOF
  | malformed
  | typeMismatch (value : List Char)
deriving DecidableEq, Repr

mutual
/-- The `interface{}` value the decoder builds for a JSON value
(`valueInterface`), or the first `UnmarshalTypeError` it saves: a number
outside the `float64` range. -/
def JSON.toGo : JSON → Except DecodeError GoValue
  | .null => .ok .nil
  | .bool b => .ok (.bool b)
  | .number n =>
    if n.overflowsFloat64 then .error (.typeMismatch ("number ".data ++ n.text))
    else .ok (.float64 n)
  | .string s => .ok (.string s)
  | .array xs =>
    match toGoList xs with
    | .error e => .error e
    | .ok ys => .ok (.slice ys)
  | .object ms =>
    match toGoMap ms [] with
    | .error e => .error e
    | .ok m => .ok (.map m)
/-- The elements of `arrayInterface`, in order. -/
def toGoList : List JSON → Except DecodeError (List GoValue)
  | [] => .ok []
  | x :: xs =>
    match x.toGo with
    | .error e => .error e
    | .ok y =>
      match toGoList xs with
      | .error e => .error e
      | .ok ys => .ok (y :: ys)
/-- The map of `objectInterface`: members are stored in textual order, a
repeated key overwriting the earlier entry. -/
def toGoMap : List (List Char × JSON) → GoMap GoValue → Except DecodeError (GoMap GoValue)
  | [], acc => .ok acc
  | (k, x) :: rest, acc =>
    match x.toGo with
    | .error e => .error e
    | .ok y =>
      match toGoMap rest (mapSet k y acc) with
      | .error e => .error e
      | .ok m => .ok m
end

/-- Unmarshalling of a scanned value into `var out map[string]interface{}`
(initially nil): `null` leaves it nil, an object fills a fresh map, every
other value is an `UnmarshalTypeError` naming its kind. -/
def unmarshalMap : JSON → Except DecodeError (Option (GoMap GoValue))
  | .null => .ok none
  | .bool _ => .error (.typeMismatch "bool".data)
  | .number _ => .error (.typeMismatch "number".data)
  | .string _ => .error (.typeMismatch "string".data)
  | .array _ => .error (.typeMismatch "array".data)
  | .object ms =>
    match toGoMap ms [] with
    | .error e => .error e
    | .ok m => .ok (some m)

/-! ## net/http -/

/-- What the transport reports when a request or a read fails. -/
inductive TransportError where
  | connectionRefused
  | dnsFailure
  | tlsFailure
  | timeout
  | other (msg : String)
deriving DecidableEq, Repr

/-- A response stream: the bytes it delivers and how it ends, with `io.EOF`
(`none`) or with a read error. -/
structure Body where
  data : List Char
  readErr : Option TransportError

/-- The part of `http.Response` in reach of the client. -/
structure Response where
  statusCode : Nat
  body : Body

/-- The part of `http.Request` that `Query` sets.  `rawURL` is the string
handed to `http.NewRequest`; the request itself holds the URL that
`url.Parse` makes of it. -/
structure Request where
  method : String
  rawURL : String
  header : List (String × String)
  body : List Char

/-- The world outside the process: which URLs `url.Parse` accepts beyond its
first check, and what `http.Client{Timeout: t}.Do(req)` yields. -/
structure Network where
  urlAccepted : String → Bool
  roundTrip : Request → Int → Except TransportError Response

/-- The errors `Query` can return: the error of `client.Do`, which wraps the
transport's cause; a read error of the response stream, passed on by
`Decode`; or an error of the decoder itself. -/
inductive QueryError where
  | roundTrip (cause : TransportError)
  | bodyRead (cause : TransportError)
  | decode (e : DecodeError)
deriving DecidableEq, Repr

/-- Scalar values end one byte after their last byte: at the end of the data
the scanner needs `io.EOF` to complete them. -/
def JSON.isScalar : JSON → Bool
  | .array _ => false
  | .object _ => false
  | _ => true

/-- The error at the point where the data runs out: the reader's own error,
or else the given one for `io.EOF`. -/
def atEndOfData (b : Body) (onEOF : DecodeError) : QueryError :=
  match b.readErr with
  | some e => .bodyRead e
  | none => .decode onEOF

/-- `json.NewDecoder(body).Decode(&out)` with `out` a nil
`map[string]interface{}`: `readValue` scans the first value of the stream
and nothing after it, then the value is unmarshalled. -/
def Decode (b : Body) : Except QueryError (Option (GoMap GoValue)) :=
  if skipSpace b.data = [] then .error (atEndOfData b .eof)
  else
    match parseValue (some maxNestingDepth) (2 * b.data.length + 1) 0 b.data with
    | .error .truncated => .error (atEndOfData b .unexpectedEOF)
    | .error _ => .error (.decode .malformed)
    | .ok (v, rest) =>
      if v.isScalar ∧ rest = [] ∧ b.readErr.isSome then .error (atEndOfData b .eof)
      else
        match unmarshalMap v with
        | .error e => .error (.decode e)
        | .ok out => .ok out

/-- Go's `stringContainsCTLByte`. -/
def stringContainsCTLByte (s : List Char) : Bool :=
  s.any fun c => decide (c.toNat < 32) || decide (c.toNat = 127)

/-- `url.Parse` accepts the URL: it cuts the fragment off and refuses a
control byte in what is left, before any other check. -/
def urlParses (net : Network) (url : String) : Bool :=
  !stringContainsCTLByte (url.data.takeWhile (fun c => c ≠ '#')) && net.urlAccepted url

/-- `http.NewRequest(method, url, body)` for a valid method: the request, or
nil when `url.Parse` refuses the URL. -/
def NewRequest (net : Network) (method url : String) (body : List Char) : Option Request :=
  if urlParses net url then some ⟨method, url, [], body⟩ else none

/-- `req.Header.Set(key, value)` for a key in canonical form. -/
def headerSet (key value : String) : List (String × String) → List (String × String)
  | [] => [(key, value)]
  | (k, v) :: rest =>
    if k = key then (key, value) :: rest else (k, v) :: headerSet key value rest

/-- `req.Header.Get(key)` for a key in canonical form. -/
def headerGet (key : String) : List (String × String) → Option String
  | [] => none
  | (k, v) :: rest => if k = key then some v else headerGet key rest

/-! ## encoding/json: `Marshal` of a `map[string]string` -/

/-- Go's `hex` table. -/
def hexDigit (n : Nat) : Char :=
  "0123456789abcdef".data.getD n '0'

/-- One character of `appendString` with HTML escaping on, as of Go 1.22
(earlier versions write `\u0008` and `\u000c` for backspace and form
feed). -/
def quoteChar (c : Char) : List Char :=
  if c = '\\' ∨ c = '"' then ['\\', c]
  else if c.toNat = 8 then ['\\', 'b']
  else if c.toNat = 12 then ['\\', 'f']
  else if c = '\n' then ['\\', 'n']
  else if c = '\r' then ['\\', 'r']
  else if c = '\t' then ['\\', 't']
  else if c.toNat < 32 ∨ c = '<' ∨ c = '>' ∨ c = '&' then
    ['\\', 'u', '0', '0', hexDigit (c.toNat / 16), hexDigit (c.toNat % 16)]
  else if c.toNat = 8232 ∨ c.toNat = 8233 then
    ['\\', 'u', '2', '0', '2', hexDigit (c.toNat % 16)]
  else [c]

/-- A string as a JSON string token. -/
def quote (s : List Char) : List Char :=
  '"' :: (s.map quoteChar).flatten ++ ['"']

/-- The unit the scanner reads back from the text `quoteChar` writes for a
character: the code unit of a four-digit escape, or the character. -/
def quoteUnit (c : Char) : StrUnit :=
  if c = '\\' ∨ c = '"' then .lit c
  else if c.toNat = 8 ∨ c.toNat = 12 ∨ c = '\n' ∨ c = '\r' ∨ c = '\t' then .lit c
  else if c.toNat < 32 ∨ c = '<' ∨ c = '>' ∨ c = '&' then .esc c.toNat
  else if c.toNat = 8232 ∨ c.toNat = 8233 then .esc c.toNat
  else .lit c

/-- Order of keys: byte-wise, which on valid UTF-8 is the order of code
points. -/
def keyLess : List Char → List Char → Bool
  | [], [] => false
  | [], _ :: _ => true
  | _ :: _, [] => false
  | a :: as, b :: bs =>
    if a.toNat < b.toNat then true
    else if b.toNat < a.toNat then false
    else keyLess as bs

/-- Insertion of an entry into entries sorted by key. -/
def insertSorted (e : List Char × List Char) :
    List (List Char × List Char) → List (List Char × List Char)
  | [] => [e]
  | x :: xs => if keyLess e.1 x.1 then e :: x :: xs else x :: insertSorted e xs

/-- The entries of a map sorted by key, as `mapEncoder` orders them. -/
def sortByKey (m : GoMap (List Char)) : List (List Char × List Char) :=
  m.foldr insertSorted []

/-- The members of an object, comma-separated. -/
def marshalMembers : List (List Char × List Char) → List Char
  | [] => []
  | [(k, v)] => quote k ++ ':' :: quote v
  | (k, v) :: rest => quote k ++ ':' :: quote v ++ ',' :: marshalMembers rest

/-- `json.Marshal` of a `map[string]string`; it never fails. -/
def Marshal (m : GoMap (List Char)) : List Char :=
  '{' :: marshalMembers (sortByKey m) ++ ['}']

/-! ## internal/llm/ollama_client.go -/

/-- Go's `time.Second`, in nanoseconds. -/
def Second : Int := 1000000000

/-- The struct `OllamaClient`; `Timeout` is a `time.Duration`. -/
structure OllamaClient where
  BaseURL : String
  Model : String
  Timeout : Int
deriving DecidableEq, Repr

/-- The constructor `New`. -/
def New (baseURL model : String) : OllamaClient :=
  ⟨baseURL, model, 5 * Second⟩

/-- What `Query` does to the outside, in order.  `httpDo` is one call of
`client.Do`; what the library puts on the wire for it (the redirects it
follows) is inside that call. -/
inductive Effect where
  | httpDo (req : Request) (timeout : Int)
  | decodeBody
  | closeBody

/-- How a call of `Query` ends: with its two results, or in a run-time
panic. -/
inductive Outcome where
  | returned (out : Option (GoMap GoValue)) (err : Option QueryError)
  | panicked

/-- A call of `Query`: how it ends and what it did. -/
structure Run where
  outcome : Outcome
  effects : List Effect

/-- Lines 22 to 25 of `Query`: the payload map, its JSON text, the request
and its header.  The error of `http.NewRequest` is discarded, so this is
`none` exactly when the request is nil. -/
def buildRequest (net : Network) (c : OllamaClient) (prompt : String) : Option Request :=
  let payload : GoMap (List Char) :=
    mapSet "prompt".data prompt.data (mapSet "model".data c.Model.data [])
  let body := Marshal payload
  match NewRequest net "POST" (c.BaseURL ++ "/api/completions") body with
  | none => none
  | some req =>
    some { req with header := headerSet "Content-Type" "application/json" req.header }

/-- The method `(*OllamaClient).Query`.  A nil request reaches
`req.Header.Set`, which dereferences it: the call panics before anything is
sent.  The deferred `Body.Close` runs once `Decode` is done. -/
def Query (net : Network) (c : OllamaClient) (prompt : String) : Run :=
  match buildRequest net c prompt with
  | none => ⟨.panicked, []⟩
  | some req =>
    match net.roundTrip req c.Timeout with
    | .error e => ⟨.returned none (some (.roundTrip e)), [.httpDo req c.Timeout]⟩
    | .ok resp =>
      match Decode resp.body with
      | .error e => ⟨.returned none (some e), [.httpDo req c.Timeout, .decodeBody, .closeBody]⟩
      | .ok out => ⟨.returned out none, [.httpDo req c.Timeout, .decodeBody, .closeBody]⟩

/-- The requests a run handed to `client.Do`, each with the timeout of the
client that sent it. -/
def Run.requests (r : Run) : List (Request × Int) :=
  r.effects.filterMap fun e =>
    match e with
    | .httpDo req t => some (req, t)
    | _ => none

/-- How often a run closed the response stream. -/
def Run.closes (r : Run) : Nat :=
  (r.effects.filter fun e =>
    match e with
    | .closeBody => true
    | _ => false).length

/-- How often a run started decoding. -/
def Run.decodes (r : Run) : Nat :=
  (r.effects.filter fun e =>
    match e with
    | .decodeBody => true
    | _ => false).length

/-- The same network with the status code of every response replaced. -/
def Network.mapStatus (net : Network) (f : Nat → Nat) : Network :=
  ⟨net.urlAccepted, fun req t =>
    match net.roundTrip req t with
    | .error e => .error e
    | .ok resp => .ok ⟨f resp.statusCode, resp.body⟩⟩

/-- A backend that accepts every URL and answers every request with the
given status and body, delivered whole. -/
def serverReturning (status : Nat) (body : String) : Network :=
  ⟨fun _ => true, fun _ _ => .ok ⟨status, ⟨body.data, none⟩⟩⟩

/-- A network on which every round trip fails with the given cause. -/
def unreachable (cause : TransportError) : Network :=
  ⟨fun _ => true, fun _ _ => .error cause⟩

/-! ## JSON as the specification reads it -/

namespace Spec

/-- The first JSON value of a text, read by the grammar alone (no nesting
limit), and the text after it. -/
def firstValue (body : List Char) : Option (JSON × List Char) :=
  match parseValue none (2 * body.length + 1) 0 body with
  | .ok r => some r
  | .error _ => none

/-- A text that is well-formed JSON as a whole: one value and nothing but
white space after it. -/
def wellFormed (body : List Char) : Option JSON :=
  match firstValue body with
  | some (v, rest) => if skipSpace rest = [] then some v else none
  | none => none

mutual
/-- The decoded JSON: the value a JSON value stands for. -/
def decoded : JSON → GoValue
  | .null => .nil
  | .bool b => .bool b
  | .number n => .float64 n
  | .string s => .string s
  | .array xs => .slice (decodedList xs)
  | .object ms => .map (decodedMap ms [])
/-- The decoded elements of an array. -/
def decodedList : List JSON → List GoValue
  | [] => []
  | x :: xs => decoded x :: decodedList xs
/-- The decoded members of an object, the last of equal keys winning. -/
def decodedMap : List (List Char × JSON) → GoMap GoValue → GoMap GoValue
  | [], acc => acc
  | (k, x) :: rest, acc => decodedMap rest (mapSet k (decoded x) acc)
end

end Spec

mutual
/-- How deep the brackets of a value nest. -/
def JSON.depth : JSON → Nat
  | .array xs => depthList xs + 1
  | .object ms => depthMembers ms + 1
  | _ => 0
/-- The deepest of the elements. -/
def depthList : List JSON → Nat
  | [] => 0
  | x :: xs => max x.depth (depthList xs)
/-- The deepest of the member values. -/
def depthMembers : List (List Char × JSON) → Nat
  | [] => 0
  | (_, x) :: ms => max x.depth (depthMembers ms)
end

mutual
/-- Every number of the value is within the range of a `float64`. -/
def JSON.inRange : JSON → Bool
  | .number n => !n.overflowsFloat64
  | .array xs => inRangeList xs
  | .object ms => inRangeMembers ms
  | _ => true
/-- Every number of the elements is in range. -/
def inRangeList : List JSON → Bool
  | [] => true
  | x :: xs => x.inRange && inRangeList xs
/-- Every number of the member values is in range. -/
def inRangeMembers : List (List Char × JSON) → Bool
  | [] => true
  | (_, x) :: ms => x.inRange && inRangeMembers ms
end

/-- A value of the shape of the map `Decode` stores into: `null`, or an
object nested no deeper than the limit. -/
def JSON.mapShaped : JSON → Bool
  | .null => true
  | .object ms => decide ((JSON.object ms).depth ≤ maxNestingDepth)
  | _ => false

/-- A backend that accepts every URL and whose response stream delivers the
given bytes and then fails with the given read error. -/
def serverCutOff (status : Nat) (body : String) (cause : TransportError) : Network :=
  ⟨fun _ => true, fun _ _ => .ok ⟨status, ⟨body.data, some cause⟩⟩⟩

/-- The value of `k + 1` nested empty arrays. -/
def nestedArray : Nat → JSON
  | 0 => .array []
  | k + 1 => .array [nestedArray k]

/-- The text of an object whose one member `a` is `k + 1` nested empty
arrays. -/
def deepBody (k : Nat) : List Char :=
  "\x7b\"a\":".data ++
    (List.replicate (k + 1) '[' ++ (List.replicate (k + 1) ']' ++ "\x7d".data))

/-! ## cmd/main.go -/

/-- What the detection goroutine does to the outside, in order.  `E` is the
type of errors, `R` the type of an LLM response. -/
inductive MainEvent (E R : Type) where
  | listen
  | listenReturned (err : Option E)
  | logListenerError (e : E)
  | sleep (d : Int)
  | printWake
  | transcribe
  | logTranscriptionError (e : E)
  | printTranscription (text : String)
  | query (prompt : String)
  | logLLMError (e : E)
  | printResponse (r : R)

/-- Modelled from the spec: `audio.TranscribeSpeech` and
`llm.GetLLMResponse`, which `main` calls, are not among the sources.  Each is
a call that returns a value and an error; this is what the two return in
the course of one detection, the LLM client for every prompt it may be
given. -/
structure Cycle (E R : Type) where
  transcription : Except E String
  respond : String → Except E R

/-- The callback passed to `audio.ListenForWakeWord` (lines 29 to 47). -/
def onWakeWord {E R : Type} (c : Cycle E R) : List (MainEvent E R) :=
  .printWake :: .transcribe ::
    match c.transcription with
    | .error e => [.logTranscriptionError e]
    | .ok text =>
      .printTranscription text :: .query text ::
        match c.respond text with
        | .error e => [.logLLMError e]
        | .ok r => [.printResponse r]

/-- Modelled from the spec: `audio.ListenForWakeWord`, which `main` calls, is
not among the sources.  It is a blocking entry point that takes a callback,
invokes it once per detection, and returns an error on a failure of the
listener.  This is one stay inside it: the detections it reports, in order,
and the error it returns with (`none` for nil). -/
structure Session (E R : Type) where
  cycles : List (Cycle E R)
  result : Option E

/-- The callbacks of a stay, one detection after the other. -/
def detections {E R : Type} : List (Cycle E R) → List (MainEvent E R)
  | [] => []
  | c :: cs => onWakeWord c ++ detections cs

/-- The statements after the return of the listener (lines 49 to 54): the
error is logged when there is one, then the goroutine sleeps. -/
def afterReturn {E R : Type} (result : Option E) : List (MainEvent E R) :=
  match result with
  | some e => [.logListenerError e, .sleep (1 * Second)]
  | none => [.sleep (1 * Second)]

/-- The body of the `for` loop of the goroutine, once round. -/
def iteration {E R : Type} (s : Session E R) : List (MainEvent E R) :=
  .listen :: (detections s.cycles ++ .listenReturned s.result :: afterReturn s.result)

/-- The goroutine of `main` up to its call of the listener in round `n`,
the stays of the listener being given by `w`. -/
def loopTrace {E R : Type} (w : Nat → Session E R) : Nat → List (MainEvent E R)
  | 0 => [.listen]
  | n + 1 =>
    loopTrace w n ++ (detections (w n).cycles ++
      .listenReturned (w n).result :: (afterReturn (w n).result ++ [.listen]))

/-- The number of events of a trace that satisfy a test. -/
def countEvents {α : Type} (p : α → Bool) (t : List α) : Nat :=
  (t.filter p).length

/-- The event is a call of the listener. -/
def MainEvent.isListen {E R : Type} : MainEvent E R → Bool
  | .listen => true
  | _ => false

/-- The event is a call of the transcriber. -/
def MainEvent.isTranscribe {E R : Type} : MainEvent E R → Bool
  | .transcribe => true
  | _ => false

/-- The event is a call of the LLM client. -/
def MainEvent.isQuery {E R : Type} : MainEvent E R → Bool
  | .query _ => true
  | _ => false

/-- The event is the display of a response. -/
def MainEvent.isResponse {E R : Type} : MainEvent E R → Bool
  | .printResponse _ => true
  | _ => false

/-- The event is a sleep. -/
def MainEvent.isSleep {E R : Type} : MainEvent E R → Bool
  | .sleep _ => true
  | _ => false

/-- The event belongs to the statements of the loop around the callback:
the call of the listener and its return, the log of its error, the sleep. -/
def MainEvent.isLoopEvent {E R : Type} : MainEvent E R → Bool
  | .listen => true
  | .listenReturned _ => true
  | .logListenerError _ => true
  | .sleep _ => true
  | _ => false

/-- The event is the return of the listener with an error. -/
def MainEvent.isErrorReturn {E R : Type} : MainEvent E R → Bool
  | .listenReturned (some _) => true
  | _ => false

/-- Every return of the listener with an error, where a trace has one, is
directly followed by the log of that error, a sleep of one second and a call
of the listener. -/
def Backoff {E R : Type} (t : List (MainEvent E R)) : Prop :=
  ∀ pre post e, t = pre ++ .listenReturned (some e) :: post →
    ∃ post', post = .logListenerError e :: .sleep 1000000000 :: .listen :: post'

/-! ## internal/audio/wakeword.go -/

/-- The error `DetectWakeWord` returns: the error of `godotenv.Load` wrapped
by `fmt.Errorf`, or an error of the engine as it is. -/
inductive WakeError (E : Type) where
  | envFile (cause : E)
  | engine (e : E)

/-- What one run of `DetectWakeWord` meets: the result of `godotenv.Load`,
the value of the environment variable, the result of
`porcupine.NewPorcupine` (an instance, by its handle), and the result of
`p.Process` on each frame. -/
structure WakeEnv (E : Type) where
  loadEnv : Option E
  accessKey : String
  newPorcupine : String → Except E Nat
  process : Nat → Except E Bool

/-- What `DetectWakeWord` does to the outside.  No statement of the function
releases an instance; `release` is what such a statement would do. -/
inductive WakeEvent where
  | loadEnv
  | getenv
  | create (handle : Nat)
  | process (frame : Nat)
  | printDetected
  | release (handle : Nat)
deriving DecidableEq, Repr

/-- The `for` loop of `DetectWakeWord` from a frame on, for at most `fuel`
frames: the error it returns with (`none` while it is still running) and
what it did. -/
def processLoop {E : Type} (env : WakeEnv E) : Nat → Nat → Option E × List WakeEvent
  | 0, _ => (none, [])
  | fuel + 1, frame =>
    match env.process frame with
    | .error e => (some e, [.process frame])
    | .ok detected =>
      let r := processLoop env fuel (frame + 1)
      (r.1, .process frame :: ((if detected then [.printDetected] else []) ++ r.2))

/-- The function `DetectWakeWord`, run for at most `fuel` frames. -/
def DetectWakeWord {E : Type} (env : WakeEnv E) (fuel : Nat) :
    Option (WakeError E) × List WakeEvent :=
  match env.loadEnv with
  | some e => (some (.envFile e), [.loadEnv])
  | none =>
    match env.newPorcupine env.accessKey with
    | .error e => (some (.engine e), [.loadEnv, .getenv])
    | .ok h =>
      let r := processLoop env fuel 0
      (r.1.map .engine, .loadEnv :: .getenv :: .create h :: r.2)

/-- The handles of the instances alive after a trace that starts with the
given ones alive. -/
def liveAfter : List Nat → List WakeEvent → List Nat
  | live, [] => live
  | live, .create h :: rest => liveAfter (h :: live) rest
  | live, .release h :: rest => liveAfter (live.erase h) rest
  | live, _ :: rest => liveAfter live rest

/-- Runs of `DetectWakeWord` one after the other, each started when the one
before it has returned. -/
def restarts {E : Type} (fuel : Nat) : List (WakeEnv E) → List WakeEvent
  | [] => []
  | env :: envs =>
    match (DetectWakeWord env fuel).1 with
    | none => (DetectWakeWord env fuel).2
    | some _ => (DetectWakeWord env fuel).2 ++ restarts fuel envs

/-- The event is the creation or the release of an instance. -/
def WakeEvent.isLifecycle : WakeEvent → Bool
  | .create _ => true
  | .release _ => true
  | _ => false

/-- A run in which the `.env` file loads, the engine yields the instance
with the given handle, and `Process` fails on the first frame. -/
def deadMicrophone (handle : Nat) : WakeEnv String :=
  ⟨none, "key", fun _ => .ok handle, fun _ => .error "audio device lost"⟩

/-! # Theorems -/

/-! ## The scanner -/

/-- Without a limit no depth exceeds. -/
theorem exceeds_none (d : Nat) : exceeds none d = false := rfl

/-- What the scanner accepts under a nesting limit, the grammar accepts, with
the same value and the same rest. -/
theorem parse_limit_drop (L : Nat) (fuel : Nat) :
    (∀ d cs r, parseValue (some L) fuel d cs = .ok r → parseValue none fuel d cs = .ok r) ∧
    (∀ d cs acc r, parseElems (some L) fuel d cs acc = .ok r → parseElems none fuel d cs acc = .ok r) ∧
    (∀ d cs acc r, parseMembers (some L) fuel d cs acc = .ok r →
      parseMembers none fuel d cs acc = .ok r) := by
  induction fuel with
  | zero => simp [parseValue, parseElems, parseMembers]
  | succ n ih =>
    obtain ⟨ihv, ihe, ihm⟩ := ih
    refine ⟨?_, ?_, ?_⟩
    · intro d cs r h
      simp only [parseValue, exceeds_none] at h ⊢
      cases hs : skipSpace cs with
      | nil => simp [hs] at h
      | cons c rest =>
        simp only [hs] at h ⊢
        by_cases hc : c = '{'
        · simp only [hc, if_true] at h ⊢
          cases hex : exceeds (some L) (d + 1) with
          | true => simp [hex] at h
          | false =>
            simp only [hex] at h
            cases hs2 : skipSpace rest with
            | nil => simp [hs2] at h
            | cons c2 rest2 =>
              simp only [hs2] at h ⊢
              by_cases hc2 : c2 = '}'
              · simpa [hc2] using h
              · simp only [hc2, if_false] at h ⊢
                simpa using ihm _ _ _ _ h
        · simp only [hc, if_false] at h ⊢
          by_cases hb : c = '['
          · simp only [hb, if_true] at h ⊢
            cases hex : exceeds (some L) (d + 1) with
            | true => simp [hex] at h
            | false =>
              simp only [hex] at h
              cases hs2 : skipSpace rest with
              | nil => simp [hs2] at h
              | cons c2 rest2 =>
                simp only [hs2] at h ⊢
                by_cases hc2 : c2 = ']'
                · simpa [hc2] using h
                · simp only [hc2, if_false] at h ⊢
                  simpa using ihe _ _ _ _ h
          · simpa [hb] using h
    · intro d cs acc r h
      simp only [parseElems] at h ⊢
      cases hv : parseValue (some L) n d cs with
      | error e => simp [hv] at h
      | ok vr =>
        obtain ⟨v, rest⟩ := vr
        simp only [hv] at h
        simp only [ihv _ _ _ hv]
        cases hs : skipSpace rest with
        | nil => simp [hs] at h
        | cons c rest2 =>
          simp only [hs] at h ⊢
          by_cases hc : c = ','
          · simp only [hc, if_true] at h ⊢
            exact ihe _ _ _ _ h
          · simpa [hc] using h
    · intro d cs acc r h
      simp only [parseMembers] at h ⊢
      cases hs : skipSpace cs with
      | nil => simp [hs] at h
      | cons c rest =>
        simp only [hs] at h ⊢
        by_cases hc : c = '"'
        · simp only [hc, if_true] at h ⊢
          cases hk : scanString .normal [] rest with
          | error e => simp [hk] at h
          | ok kr =>
            obtain ⟨us, rest2⟩ := kr
            simp only [hk] at h ⊢
            cases hs2 : skipSpace rest2 with
            | nil => simp [hs2] at h
            | cons c2 rest3 =>
              simp only [hs2] at h ⊢
              by_cases hc2 : c2 = ':'
              · simp only [hc2, if_true] at h ⊢
                cases hv : parseValue (some L) n d rest3 with
                | error e => simp [hv] at h
                | ok vr =>
                  obtain ⟨v, rest4⟩ := vr
                  simp only [hv] at h
                  simp only [ihv _ _ _ hv]
                  cases hs3 : skipSpace rest4 with
                  | nil => simp [hs3] at h
                  | cons c3 rest5 =>
                    simp only [hs3] at h ⊢
                    by_cases hc3 : c3 = ','
                    · simp only [hc3, if_true] at h ⊢
                      exact ihm _ _ _ _ h
                    · simpa [hc3] using h
              · simp [hc2] at h
        · simp [hc] at h

/-- The array `parseElems` returns holds the elements it was given. -/
theorem parseElems_shape (lim : Option Nat) (fuel : Nat) :
    ∀ d cs acc v r, parseElems lim fuel d cs acc = .ok (v, r) →
      ∃ xs, v = .array (acc.reverse ++ xs) := by
  induction fuel with
  | zero => intro d cs acc v r h; simp [parseElems] at h
  | succ n ih =>
    intro d cs acc v r h
    simp only [parseElems] at h
    cases hv : parseValue lim n d cs with
    | error e => simp [hv] at h
    | ok vr =>
      obtain ⟨x, rest⟩ := vr
      simp only [hv] at h
      cases hs : skipSpace rest with
      | nil => simp [hs] at h
      | cons c rest2 =>
        simp only [hs] at h
        by_cases hc : c = ','
        · simp only [hc, if_true] at h
          obtain ⟨xs, hxs⟩ := ih _ _ _ _ _ h
          exact ⟨x :: xs, by simp [hxs]⟩
        · simp only [hc, if_false] at h
          by_cases hb : c = ']'
          · simp only [hb, if_true, Except.ok.injEq, Prod.mk.injEq] at h
            exact ⟨[x], by simp [← h.1]⟩
          · simp [hb] at h

/-- The object `parseMembers` returns holds the members it was given. -/
theorem parseMembers_shape (lim : Option Nat) (fuel : Nat) :
    ∀ d cs acc v r, parseMembers lim fuel d cs acc = .ok (v, r) →
      ∃ ms, v = .object (acc.reverse ++ ms) := by
  induction fuel with
  | zero => intro d cs acc v r h; simp [parseMembers] at h
  | succ n ih =>
    intro d cs acc v r h
    simp only [parseMembers] at h
    cases hs : skipSpace cs with
    | nil => simp [hs] at h
    | cons c rest =>
      simp only [hs] at h
      by_cases hc : c = '"'
      · simp only [hc, if_true] at h
        cases hk : scanString .normal [] rest with
        | error e => simp [hk] at h
        | ok kr =>
          obtain ⟨us, rest2⟩ := kr
          simp only [hk] at h
          cases hs2 : skipSpace rest2 with
          | nil => simp [hs2] at h
          | cons c2 rest3 =>
            simp only [hs2] at h
            by_cases hc2 : c2 = ':'
            · simp only [hc2, if_true] at h
              cases hv : parseValue lim n d rest3 with
              | error e => simp [hv] at h
              | ok vr =>
                obtain ⟨x, rest4⟩ := vr
                simp only [hv] at h
                cases hs3 : skipSpace rest4 with
                | nil => simp [hs3] at h
                | cons c3 rest5 =>
                  simp only [hs3] at h
                  by_cases hc3 : c3 = ','
                  · simp only [hc3, if_true] at h
                    obtain ⟨ms, hms⟩ := ih _ _ _ _ _ h
                    exact ⟨(decodeUnits none us, x) :: ms, by simp [hms]⟩
                  · simp only [hc3, if_false] at h
                    by_cases hb : c3 = '}'
                    · simp only [hb, if_true, Except.ok.injEq, Prod.mk.injEq] at h
                      exact ⟨[(decodeUnits none us, x)], by simp [← h.1]⟩
                    · simp [hb] at h
            · simp [hc2] at h
      · simp [hc] at h

/-- An element nests no deeper than the elements together. -/
theorem depth_le_depthList (x : JSON) (xs : List JSON) (h : x ∈ xs) : x.depth ≤ depthList xs := by
  induction xs with
  | nil => simp at h
  | cons y ys ih =>
    simp only [depthList]
    rcases List.mem_cons.mp h with rfl | h'
    · exact le_max_left _ _
    · exact le_trans (ih h') (le_max_right _ _)

/-- A member value nests no deeper than the members together. -/
theorem depth_le_depthMembers (k : List Char) (x : JSON) (ms : List (List Char × JSON))
    (h : (k, x) ∈ ms) : x.depth ≤ depthMembers ms := by
  induction ms with
  | nil => simp at h
  | cons y ys ih =>
    obtain ⟨k', y'⟩ := y
    simp only [depthMembers]
    rcases List.mem_cons.mp h with h' | h'
    · simp only [Prod.mk.injEq] at h'
      rw [h'.2]
      exact le_max_left _ _
    · exact le_trans (ih h') (le_max_right _ _)

/-- A depth within the limit does not exceed it. -/
theorem exceeds_some_of_le (L d : Nat) (h : d ≤ L) : exceeds (some L) d = false := by
  simp [exceeds, h]

/-- A value the grammar accepts is accepted under a nesting limit that its
brackets respect. -/
theorem parse_limit_add (L : Nat) (fuel : Nat) :
    (∀ d cs v r, parseValue none fuel d cs = .ok (v, r) → d + v.depth ≤ L →
      parseValue (some L) fuel d cs = .ok (v, r)) ∧
    (∀ d cs acc v r, parseElems none fuel d cs acc = .ok (v, r) → d + v.depth ≤ L + 1 →
      parseElems (some L) fuel d cs acc = .ok (v, r)) ∧
    (∀ d cs acc v r, parseMembers none fuel d cs acc = .ok (v, r) → d + v.depth ≤ L + 1 →
      parseMembers (some L) fuel d cs acc = .ok (v, r)) := by
  induction fuel with
  | zero => simp [parseValue, parseElems, parseMembers]
  | succ n ih =>
    obtain ⟨ihv, ihe, ihm⟩ := ih
    refine ⟨?_, ?_, ?_⟩
    · intro d cs v r h hd
      simp only [parseValue, exceeds_none] at h ⊢
      cases hs : skipSpace cs with
      | nil => simp [hs] at h
      | cons c rest =>
        simp only [hs] at h ⊢
        by_cases hc : c = '{'
        · simp only [hc, if_true] at h ⊢
          cases hs2 : skipSpace rest with
          | nil => simp [hs2] at h
          | cons c2 rest2 =>
            simp only [hs2, Bool.false_eq_true, if_false] at h
            have hdepth : 1 ≤ v.depth := by
              by_cases hc2 : c2 = '}'
              · simp only [hc2, if_true, Except.ok.injEq, Prod.mk.injEq] at h
                rw [← h.1]; simp [JSON.depth]
              · simp only [hc2, if_false] at h
                obtain ⟨ms, hms⟩ := parseMembers_shape _ _ _ _ _ _ _ h
                rw [hms]; simp [JSON.depth]
            rw [exceeds_some_of_le L (d + 1) (by omega)]
            simp only [Bool.false_eq_true, if_false]
            by_cases hc2 : c2 = '}'
            · simpa [hc2] using h
            · simp only [hc2, if_false] at h ⊢
              exact ihm _ _ _ _ _ h (by omega)
        · simp only [hc, if_false] at h ⊢
          by_cases hb : c = '['
          · simp only [hb, if_true] at h ⊢
            cases hs2 : skipSpace rest with
            | nil => simp [hs2] at h
            | cons c2 rest2 =>
              simp only [hs2, Bool.false_eq_true, if_false] at h
              have hdepth : 1 ≤ v.depth := by
                by_cases hc2 : c2 = ']'
                · simp only [hc2, if_true, Except.ok.injEq, Prod.mk.injEq] at h
                  rw [← h.1]; simp [JSON.depth]
                · simp only [hc2, if_false] at h
                  obtain ⟨xs, hxs⟩ := parseElems_shape _ _ _ _ _ _ _ h
                  rw [hxs]; simp [JSON.depth]
              rw [exceeds_some_of_le L (d + 1) (by omega)]
              simp only [Bool.false_eq_true, if_false]
              by_cases hc2 : c2 = ']'
              · simpa [hc2] using h
              · simp only [hc2, if_false] at h ⊢
                exact ihe _ _ _ _ _ h (by omega)
          · simpa [hb] using h
    · intro d cs acc v r h hd
      simp only [parseElems] at h ⊢
      cases hv : parseValue none n d cs with
      | error e => simp [hv] at h
      | ok vr =>
        obtain ⟨x, rest⟩ := vr
        simp only [hv] at h
        have hx : d + x.depth ≤ L := by
          obtain ⟨xs, hxs⟩ := parseElems_shape none (n + 1) d cs acc v r (by
            simp only [parseElems, hv]; exact h)
          have hmem : x ∈ acc.reverse ++ xs := by
            cases hs : skipSpace rest with
            | nil => simp [hs] at h
            | cons c rest2 =>
              simp only [hs] at h
              by_cases hc : c = ','
              · simp only [hc, if_true] at h
                obtain ⟨ys, hys⟩ := parseElems_shape _ _ _ _ _ _ _ h
                rw [hxs] at hys
                simp only [JSON.array.injEq] at hys
                rw [hys]; simp
              · simp only [hc, if_false] at h
                by_cases hb : c = ']'
                · simp only [hb, if_true, Except.ok.injEq, Prod.mk.injEq] at h
                  rw [hxs] at h
                  simp only [JSON.array.injEq] at h
                  rw [← h.1]; simp
                · simp [hb] at h
          have := depth_le_depthList x _ hmem
          rw [hxs] at hd
          simp only [JSON.depth] at hd
          omega
        simp only [ihv _ _ _ _ hv hx]
        cases hs : skipSpace rest with
        | nil => simp [hs] at h
        | cons c rest2 =>
          simp only [hs] at h ⊢
          by_cases hc : c = ','
          · simp only [hc, if_true] at h ⊢
            exact ihe _ _ _ _ _ h hd
          · simpa [hc] using h
    · intro d cs acc v r h hd
      have hshape := parseMembers_shape none (n + 1) d cs acc v r h
      simp only [parseMembers] at h ⊢
      cases hs : skipSpace cs with
      | nil => simp [hs] at h
      | cons c rest =>
        simp only [hs] at h ⊢
        by_cases hc : c = '"'
        · simp only [hc, if_true] at h ⊢
          cases hk : scanString .normal [] rest with
          | error e => simp [hk] at h
          | ok kr =>
            obtain ⟨us, rest2⟩ := kr
            simp only [hk] at h ⊢
            cases hs2 : skipSpace rest2 with
            | nil => simp [hs2] at h
            | cons c2 rest3 =>
              simp only [hs2] at h ⊢
              by_cases hc2 : c2 = ':'
              · simp only [hc2, if_true] at h ⊢
                cases hv : parseValue none n d rest3 with
                | error e => simp [hv] at h
                | ok vr =>
                  obtain ⟨x, rest4⟩ := vr
                  simp only [hv] at h
                  have hx : d + x.depth ≤ L := by
                    obtain ⟨ms, hms⟩ := hshape
                    have hmem : (decodeUnits none us, x) ∈ acc.reverse ++ ms := by
                      cases hs3 : skipSpace rest4 with
                      | nil => simp [hs3] at h
                      | cons c3 rest5 =>
                        simp only [hs3] at h
                        by_cases hc3 : c3 = ','
                        · simp only [hc3, if_true] at h
                          obtain ⟨ys, hys⟩ := parseMembers_shape _ _ _ _ _ _ _ h
                          rw [hms] at hys
                          simp only [JSON.object.injEq] at hys
                          rw [hys]; simp
                        · simp only [hc3, if_false] at h
                          by_cases hb : c3 = '}'
                          · simp only [hb, if_true, Except.ok.injEq, Prod.mk.injEq] at h
                            rw [hms] at h
                            simp only [JSON.object.injEq] at h
                            rw [← h.1]; simp
                          · simp [hb] at h
                    have := depth_le_depthMembers _ x _ hmem
                    rw [hms] at hd
                    simp only [JSON.depth] at hd
                    omega
                  simp only [ihv _ _ _ _ hv hx]
                  cases hs3 : skipSpace rest4 with
                  | nil => simp [hs3] at h
                  | cons c3 rest5 =>
                    simp only [hs3] at h ⊢
                    by_cases hc3 : c3 = ','
                    · simp only [hc3, if_true] at h ⊢
                      exact ihm _ _ _ _ _ h hd
                    · simpa [hc3] using h
              · simp [hc2] at h
        · simp [hc] at h

mutual
/-- Within the `float64` range the decoder builds the decoded JSON. -/
theorem toGo_of_inRange : ∀ (v : JSON), v.inRange = true → v.toGo = .ok (Spec.decoded v)
  | .null, _ => by simp [JSON.toGo, Spec.decoded]
  | .bool _, _ => by simp [JSON.toGo, Spec.decoded]
  | .number n, h => by
    simp only [JSON.inRange, Bool.not_eq_true'] at h
    simp [JSON.toGo, Spec.decoded, h]
  | .string _, _ => by simp [JSON.toGo, Spec.decoded]
  | .array xs, h => by
    simp only [JSON.inRange] at h
    simp [JSON.toGo, Spec.decoded, toGoList_of_inRange xs h]
  | .object ms, h => by
    simp only [JSON.inRange] at h
    simp [JSON.toGo, Spec.decoded, toGoMap_of_inRange ms [] h]
/-- The same for the elements of an array. -/
theorem toGoList_of_inRange : ∀ (xs : List JSON), inRangeList xs = true →
    toGoList xs = .ok (Spec.decodedList xs)
  | [], _ => by simp [toGoList, Spec.decodedList]
  | x :: xs, h => by
    simp only [inRangeList, Bool.and_eq_true] at h
    simp [toGoList, Spec.decodedList, toGo_of_inRange x h.1, toGoList_of_inRange xs h.2]
/-- The same for the members of an object. -/
theorem toGoMap_of_inRange : ∀ (ms : List (List Char × JSON)) (acc : GoMap GoValue),
    inRangeMembers ms = true → toGoMap ms acc = .ok (Spec.decodedMap ms acc)
  | [], _, _ => by simp [toGoMap, Spec.decodedMap]
  | (k, x) :: ms, acc, h => by
    simp only [inRangeMembers, Bool.and_eq_true] at h
    simp [toGoMap, Spec.decodedMap, toGo_of_inRange x h.1, toGoMap_of_inRange ms _ h.2]
end

/-- Elements that nest no deeper than a bound nest no deeper together. -/
theorem depthList_le (B : Nat) (xs : List JSON) (h : ∀ x ∈ xs, x.depth ≤ B) :
    depthList xs ≤ B := by
  induction xs with
  | nil => simp [depthList]
  | cons y ys ih =>
    simp only [depthList]
    exact max_le (h y (List.mem_cons_self _ _)) (ih (fun x hx => h x (List.mem_cons_of_mem _ hx)))

/-- Member values that nest no deeper than a bound nest no deeper together. -/
theorem depthMembers_le (B : Nat) (ms : List (List Char × JSON))
    (h : ∀ m ∈ ms, m.2.depth ≤ B) : depthMembers ms ≤ B := by
  induction ms with
  | nil => simp [depthMembers]
  | cons y ys ih =>
    obtain ⟨k, x⟩ := y
    simp only [depthMembers]
    exact max_le (h (k, x) (List.mem_cons_self _ _))
      (ih (fun m hm => h m (List.mem_cons_of_mem _ hm)))

/-- A scalar value has no brackets. -/
theorem parseScalar_depth (c : Char) (rest : List Char) (v : JSON) (r : List Char)
    (h : parseScalar c rest = .ok (v, r)) : v.depth = 0 := by
  simp only [parseScalar] at h
  split at h
  · split at h
    · simp at h
    · simp only [Except.ok.injEq, Prod.mk.injEq] at h
      rw [← h.1]; rfl
  · split at h
    · split at h
      · simp at h
      · simp only [Except.ok.injEq, Prod.mk.injEq] at h
        rw [← h.1]; rfl
    · split at h
      · split at h
        · simp at h
        · simp only [Except.ok.injEq, Prod.mk.injEq] at h
          rw [← h.1]; rfl
      · split at h
        · split at h
          · simp at h
          · simp only [Except.ok.injEq, Prod.mk.injEq] at h
            rw [← h.1]; rfl
        · split at h
          · split at h
            · simp at h
            · simp only [Except.ok.injEq, Prod.mk.injEq] at h
              rw [← h.1]; rfl
          · simp at h

/-- What the scanner accepts under a nesting limit respects the limit. -/
theorem parse_depth_le (L : Nat) (fuel : Nat) :
    (∀ d cs v r, parseValue (some L) fuel d cs = .ok (v, r) → d ≤ L → d + v.depth ≤ L) ∧
    (∀ d cs acc v r, parseElems (some L) fuel d cs acc = .ok (v, r) → d ≤ L →
      (∀ a ∈ acc, d + a.depth ≤ L) → d + v.depth ≤ L + 1) ∧
    (∀ d cs acc v r, parseMembers (some L) fuel d cs acc = .ok (v, r) → d ≤ L →
      (∀ a ∈ acc, d + a.2.depth ≤ L) → d + v.depth ≤ L + 1) := by
  induction fuel with
  | zero =>
    refine ⟨?_, ?_, ?_⟩
    · intro d cs v r h; simp [parseValue] at h
    · intro d cs acc v r h; simp [parseElems] at h
    · intro d cs acc v r h; simp [parseMembers] at h
  | succ n ih =>
    obtain ⟨ihv, ihe, ihm⟩ := ih
    refine ⟨?_, ?_, ?_⟩
    · intro d cs v r h hd
      simp only [parseValue] at h
      cases hs : skipSpace cs with
      | nil => simp [hs] at h
      | cons c rest =>
        simp only [hs] at h
        by_cases hc : c = '{'
        · simp only [hc, if_true] at h
          cases hex : exceeds (some L) (d + 1) with
          | true => simp [hex] at h
          | false =>
            have hd1 : d + 1 ≤ L := by
              simp only [exceeds, decide_eq_false_iff_not, not_lt] at hex
              exact hex
            simp only [hex, Bool.false_eq_true, if_false] at h
            cases hs2 : skipSpace rest with
            | nil => simp [hs2] at h
            | cons c2 rest2 =>
              simp only [hs2] at h
              by_cases hc2 : c2 = '}'
              · simp only [hc2, if_true, Except.ok.injEq, Prod.mk.injEq] at h
                rw [← h.1]; simp only [JSON.depth, depthMembers]; omega
              · simp only [hc2, if_false] at h
                have := ihm _ _ _ _ _ h hd1 (by simp)
                omega
        · simp only [hc, if_false] at h
          by_cases hb : c = '['
          · simp only [hb, if_true] at h
            cases hex : exceeds (some L) (d + 1) with
            | true => simp [hex] at h
            | false =>
              have hd1 : d + 1 ≤ L := by
                simp only [exceeds, decide_eq_false_iff_not, not_lt] at hex
                exact hex
              simp only [hex, Bool.false_eq_true, if_false] at h
              cases hs2 : skipSpace rest with
              | nil => simp [hs2] at h
              | cons c2 rest2 =>
                simp only [hs2] at h
                by_cases hc2 : c2 = ']'
                · simp only [hc2, if_true, Except.ok.injEq, Prod.mk.injEq] at h
                  rw [← h.1]; simp only [JSON.depth, depthList]; omega
                · simp only [hc2, if_false] at h
                  have := ihe _ _ _ _ _ h hd1 (by simp)
                  omega
          · simp only [hb, if_false] at h
            rw [parseScalar_depth _ _ _ _ h]
            omega
    · intro d cs acc v r h hd hacc
      simp only [parseElems] at h
      cases hv : parseValue (some L) n d cs with
      | error e => simp [hv] at h
      | ok vr =>
        obtain ⟨x, rest⟩ := vr
        simp only [hv] at h
        have hx := ihv _ _ _ _ hv hd
        have hacc' : ∀ a ∈ x :: acc, d + a.depth ≤ L := by
          intro a ha
          rcases List.mem_cons.mp ha with rfl | ha'
          · exact hx
          · exact hacc a ha'
        cases hs : skipSpace rest with
        | nil => simp [hs] at h
        | cons c rest2 =>
          simp only [hs] at h
          by_cases hc : c = ','
          · simp only [hc, if_true] at h
            exact ihe _ _ _ _ _ h hd hacc'
          · simp only [hc, if_false] at h
            by_cases hb : c = ']'
            · simp only [hb, if_true, Except.ok.injEq, Prod.mk.injEq] at h
              rw [← h.1]
              simp only [JSON.depth]
              have := depthList_le (L - d) (x :: acc).reverse (by
                intro a ha
                have := hacc' a (List.mem_reverse.mp ha)
                omega)
              omega
            · simp [hb] at h
    · intro d cs acc v r h hd hacc
      simp only [parseMembers] at h
      cases hs : skipSpace cs with
      | nil => simp [hs] at h
      | cons c rest =>
        simp only [hs] at h
        by_cases hc : c = '"'
        · simp only [hc, if_true] at h
          cases hk : scanString .normal [] rest with
          | error e => simp [hk] at h
          | ok kr =>
            obtain ⟨us, rest2⟩ := kr
            simp only [hk] at h
            cases hs2 : skipSpace rest2 with
            | nil => simp [hs2] at h
            | cons c2 rest3 =>
              simp only [hs2] at h
              by_cases hc2 : c2 = ':'
              · simp only [hc2, if_true] at h
                cases hv : parseValue (some L) n d rest3 with
                | error e => simp [hv] at h
                | ok vr =>
                  obtain ⟨x, rest4⟩ := vr
                  simp only [hv] at h
                  have hx := ihv _ _ _ _ hv hd
                  have hacc' : ∀ a ∈ (decodeUnits none us, x) :: acc, d + a.2.depth ≤ L := by
                    intro a ha
                    rcases List.mem_cons.mp ha with rfl | ha'
                    · exact hx
                    · exact hacc a ha'
                  cases hs3 : skipSpace rest4 with
                  | nil => simp [hs3] at h
                  | cons c3 rest5 =>
                    simp only [hs3] at h
                    by_cases hc3 : c3 = ','
                    · simp only [hc3, if_true] at h
                      exact ihm _ _ _ _ _ h hd hacc'
                    · simp only [hc3, if_false] at h
                      by_cases hb : c3 = '}'
                      · simp only [hb, if_true, Except.ok.injEq, Prod.mk.injEq] at h
                        rw [← h.1]
                        simp only [JSON.depth]
                        have := depthMembers_le (L - d) ((decodeUnits none us, x) :: acc).reverse (by
                          intro a ha
                          have := hacc' a (List.mem_reverse.mp ha)
                          omega)
                        omega
                      · simp [hb] at h
              · simp [hc2] at h
        · simp [hc] at h

/-- Skipping white space never lengthens the text. -/
theorem skipSpace_length_le (cs : List Char) : (skipSpace cs).length ≤ cs.length := by
  induction cs with
  | nil => simp [skipSpace]
  | cons c cs ih =>
    simp only [skipSpace]
    split
    · simp only [List.length_cons]; omega
    · simp

/-- The text after the first significant character is shorter than the text. -/
theorem skipSpace_cons_length {cs : List Char} {c : Char} {rest : List Char}
    (h : skipSpace cs = c :: rest) : rest.length < cs.length := by
  have := skipSpace_length_le cs
  rw [h] at this
  simp only [List.length_cons] at this
  omega

/-- What a run of digits leaves is no longer than the text. -/
theorem span_snd_length_le (p : Char → Bool) (l : List Char) :
    (l.span p).2.length ≤ l.length := by
  rw [List.span_eq_take_drop]
  exact (List.dropWhile_sublist p).length_le

/-- A string token consumes at least its closing quote. -/
theorem scanString_length (cs : List Char) :
    ∀ st acc us r, scanString st acc cs = .ok (us, r) → r.length < cs.length := by
  induction cs with
  | nil => intro st acc us r h; cases st <;> simp [scanString] at h
  | cons c cs ih =>
    intro st acc us r h
    cases st with
    | normal =>
      simp only [scanString] at h
      by_cases h1 : c = '"'
      · simp only [h1, if_true, Except.ok.injEq, Prod.mk.injEq] at h
        rw [← h.2]; simp
      · simp only [h1, if_false] at h
        by_cases h2 : c = '\\'
        · simp only [h2, if_true] at h
          have := ih _ _ _ _ h
          simp only [List.length_cons]; omega
        · simp only [h2, if_false] at h
          by_cases h3 : c.toNat < 32
          · simp [h3] at h
          · simp only [h3, if_false] at h
            have := ih _ _ _ _ h
            simp only [List.length_cons]; omega
    | escape =>
      simp only [scanString] at h
      by_cases h1 : c = 'u'
      · simp only [h1, if_true] at h
        have := ih _ _ _ _ h
        simp only [List.length_cons]; omega
      · simp only [h1, if_false] at h
        cases he : simpleEscape c with
        | none => simp [he] at h
        | some ch =>
          simp only [he] at h
          have := ih _ _ _ _ h
          simp only [List.length_cons]; omega
    | hex n v =>
      simp only [scanString] at h
      cases hd : hexVal c with
      | none => simp [hd] at h
      | some dgt =>
        simp only [hd] at h
        cases n with
        | zero =>
          have := ih _ _ _ _ h
          simp only [List.length_cons]; omega
        | succ m =>
          have := ih _ _ _ _ h
          simp only [List.length_cons]; omega

/-- The string scanner has no recursion budget to use up. -/
theorem scanString_not_exhausted (cs : List Char) :
    ∀ st acc, scanString st acc cs ≠ .error .exhausted := by
  induction cs with
  | nil => intro st acc; cases st <;> simp [scanString]
  | cons c cs ih =>
    intro st acc
    cases st with
    | normal =>
      simp only [scanString]
      split
      · simp
      · split
        · exact ih _ _
        · split
          · simp
          · exact ih _ _
    | escape =>
      simp only [scanString]
      split
      · exact ih _ _
      · split
        · exact ih _ _
        · simp
    | hex n v =>
      simp only [scanString]
      split
      · simp
      · split
        · exact ih _ _
        · exact ih _ _

/-- A literal name never lengthens the text. -/
theorem scanLiteral_length (es : List Char) :
    ∀ cs r, scanLiteral es cs = .ok r → r.length ≤ cs.length := by
  induction es with
  | nil => intro cs r h; simp only [scanLiteral, Except.ok.injEq] at h; rw [h]
  | cons e es ih =>
    intro cs r h
    cases cs with
    | nil => simp [scanLiteral] at h
    | cons c cs =>
      simp only [scanLiteral] at h
      by_cases hc : c = e
      · simp only [hc, if_true] at h
        have := ih _ _ h
        simp only [List.length_cons]; omega
      · simp [hc] at h

/-- The scan of a literal name has no recursion budget to use up. -/
theorem scanLiteral_not_exhausted (es : List Char) :
    ∀ cs, scanLiteral es cs ≠ .error .exhausted := by
  induction es with
  | nil => intro cs; simp [scanLiteral]
  | cons e es ih =>
    intro cs
    cases cs with
    | nil => simp [scanLiteral]
    | cons c cs =>
      simp only [scanLiteral]
      split
      · exact ih _
      · simp

/-- A run of at least one digit consumes a character. -/
theorem scanDigits1_length (cs ds r : List Char) (h : scanDigits1 cs = .ok (ds, r)) :
    r.length < cs.length := by
  cases cs with
  | nil => simp [scanDigits1] at h
  | cons c rest =>
    simp only [scanDigits1] at h
    by_cases hd : isDigit c = true
    · simp only [hd, if_true, Except.ok.injEq, Prod.mk.injEq] at h
      have := span_snd_length_le isDigit rest
      rw [← h.2]; simp only [List.length_cons]; omega
    · simp [hd] at h

/-- The scan of digits has no recursion budget to use up. -/
theorem scanDigits1_not_exhausted (cs : List Char) : scanDigits1 cs ≠ .error .exhausted := by
  cases cs with
  | nil => simp [scanDigits1]
  | cons c rest =>
    simp only [scanDigits1]
    split <;> simp

/-- The integer part consumes a character. -/
theorem scanInt_length (cs ds r : List Char) (h : scanInt cs = .ok (ds, r)) :
    r.length < cs.length := by
  cases cs with
  | nil => simp [scanInt] at h
  | cons c rest =>
    simp only [scanInt] at h
    by_cases h0 : c = '0'
    · simp only [h0, if_true, Except.ok.injEq, Prod.mk.injEq] at h
      rw [← h.2]; simp
    · simp only [h0, if_false] at h
      by_cases hd : isDigit c = true
      · simp only [hd, if_true, Except.ok.injEq, Prod.mk.injEq] at h
        have := span_snd_length_le isDigit rest
        rw [← h.2]; simp only [List.length_cons]; omega
      · simp [hd] at h

/-- The scan of the integer part has no recursion budget to use up. -/
theorem scanInt_not_exhausted (cs : List Char) : scanInt cs ≠ .error .exhausted := by
  cases cs with
  | nil => simp [scanInt]
  | cons c rest =>
    simp only [scanInt]
    split
    · simp
    · split <;> simp

/-- The exponent never lengthens the text. -/
theorem scanExp_length (neg : Bool) (i f cs : List Char) (n : NumLit) (r : List Char)
    (h : scanExp neg i f cs = .ok (n, r)) : r.length ≤ cs.length := by
  cases cs with
  | nil =>
    simp only [scanExp, Except.ok.injEq, Prod.mk.injEq] at h
    rw [← h.2]
  | cons c rest =>
    simp only [scanExp] at h
    by_cases he : c = 'e' ∨ c = 'E'
    · simp only [he, if_true] at h
      cases rest with
      | nil => simp at h
      | cons s rest2 =>
        simp only at h
        by_cases hs : s = '+' ∨ s = '-'
        · simp only [hs, if_true] at h
          cases hd : scanDigits1 rest2 with
          | error e => simp [hd] at h
          | ok dr =>
            obtain ⟨ds, rest3⟩ := dr
            simp only [hd, Except.ok.injEq, Prod.mk.injEq] at h
            have := scanDigits1_length _ _ _ hd
            rw [← h.2]; simp only [List.length_cons]; omega
        · simp only [hs, if_false] at h
          cases hd : scanDigits1 (s :: rest2) with
          | error e => simp [hd] at h
          | ok dr =>
            obtain ⟨ds, rest3⟩ := dr
            simp only [hd, Except.ok.injEq, Prod.mk.injEq] at h
            have := scanDigits1_length _ _ _ hd
            rw [← h.2]; simp only [List.length_cons] at this ⊢; omega
    · simp only [he, if_false, Except.ok.injEq, Prod.mk.injEq] at h
      rw [← h.2]

/-- The scan of the exponent has no recursion budget to use up. -/
theorem scanExp_not_exhausted (neg : Bool) (i f cs : List Char) :
    scanExp neg i f cs ≠ .error .exhausted := by
  cases cs with
  | nil => simp [scanExp]
  | cons c rest =>
    simp only [scanExp]
    split
    · cases rest with
      | nil => simp
      | cons s rest2 =>
        simp only
        split
        · have := scanDigits1_not_exhausted rest2
          cases hd : scanDigits1 rest2 with
          | error e => simp only [ne_eq, Except.error.injEq]; intro he; exact this (by rw [hd, he])
          | ok dr => simp
        · have := scanDigits1_not_exhausted (s :: rest2)
          cases hd : scanDigits1 (s :: rest2) with
          | error e => simp only [ne_eq, Except.error.injEq]; intro he; exact this (by rw [hd, he])
          | ok dr => simp
    · simp

/-- The fraction never lengthens the text. -/
theorem scanFrac_length (neg : Bool) (i cs : List Char) (n : NumLit) (r : List Char)
    (h : scanFrac neg i cs = .ok (n, r)) : r.length ≤ cs.length := by
  cases cs with
  | nil =>
    simp only [scanFrac, Except.ok.injEq, Prod.mk.injEq] at h
    rw [← h.2]
  | cons c rest =>
    simp only [scanFrac] at h
    by_cases hd : c = '.'
    · simp only [hd, if_true] at h
      cases hs : scanDigits1 rest with
      | error e => simp [hs] at h
      | ok dr =>
        obtain ⟨ds, rest2⟩ := dr
        simp only [hs] at h
        have h1 := scanDigits1_length _ _ _ hs
        have h2 := scanExp_length _ _ _ _ _ _ h
        simp only [List.length_cons]; omega
    · simp only [hd, if_false] at h
      exact scanExp_length _ _ _ _ _ _ h

/-- The scan of the fraction has no recursion budget to use up. -/
theorem scanFrac_not_exhausted (neg : Bool) (i cs : List Char) :
    scanFrac neg i cs ≠ .error .exhausted := by
  cases cs with
  | nil => simp [scanFrac]
  | cons c rest =>
    simp only [scanFrac]
    split
    · have := scanDigits1_not_exhausted rest
      cases hd : scanDigits1 rest with
      | error e => simp only [ne_eq, Except.error.injEq]; intro he; exact this (by rw [hd, he])
      | ok dr => exact scanExp_not_exhausted _ _ _ _
    · exact scanExp_not_exhausted _ _ _ _

/-- A number token consumes a character. -/
theorem scanNumber_length (cs : List Char) (n : NumLit) (r : List Char)
    (h : scanNumber cs = .ok (n, r)) : r.length < cs.length := by
  cases cs with
  | nil => simp [scanNumber] at h
  | cons c rest =>
    simp only [scanNumber] at h
    by_cases hm : c = '-'
    · simp only [hm, if_true] at h
      cases hi : scanInt rest with
      | error e => simp [hi] at h
      | ok ir =>
        obtain ⟨i, rest2⟩ := ir
        simp only [hi] at h
        have h1 := scanInt_length _ _ _ hi
        have h2 := scanFrac_length _ _ _ _ _ h
        simp only [List.length_cons]; omega
    · simp only [hm, if_false] at h
      cases hi : scanInt (c :: rest) with
      | error e => simp [hi] at h
      | ok ir =>
        obtain ⟨i, rest2⟩ := ir
        simp only [hi] at h
        have h1 := scanInt_length _ _ _ hi
        have h2 := scanFrac_length _ _ _ _ _ h
        omega

/-- The scan of a number has no recursion budget to use up. -/
theorem scanNumber_not_exhausted (cs : List Char) : scanNumber cs ≠ .error .exhausted := by
  cases cs with
  | nil => simp [scanNumber]
  | cons c rest =>
    simp only [scanNumber]
    split
    · have := scanInt_not_exhausted rest
      cases hd : scanInt rest with
      | error e => simp only [ne_eq, Except.error.injEq]; intro he; exact this (by rw [hd, he])
      | ok dr => exact scanFrac_not_exhausted _ _ _
    · have := scanInt_not_exhausted (c :: rest)
      cases hd : scanInt (c :: rest) with
      | error e => simp only [ne_eq, Except.error.injEq]; intro he; exact this (by rw [hd, he])
      | ok dr => exact scanFrac_not_exhausted _ _ _

/-- A scalar value leaves no more than the text after its first character. -/
theorem parseScalar_length (c : Char) (rest : List Char) (v : JSON) (r : List Char)
    (h : parseScalar c rest = .ok (v, r)) : r.length ≤ rest.length := by
  simp only [parseScalar] at h
  split at h
  · cases hk : scanString .normal [] rest with
    | error e => simp [hk] at h
    | ok kr =>
      obtain ⟨us, rest2⟩ := kr
      simp only [hk, Except.ok.injEq, Prod.mk.injEq] at h
      have := scanString_length _ _ _ _ _ hk
      rw [← h.2]; omega
  · split at h
    · cases hk : scanNumber (c :: rest) with
      | error e => simp [hk] at h
      | ok kr =>
        obtain ⟨n, rest2⟩ := kr
        simp only [hk, Except.ok.injEq, Prod.mk.injEq] at h
        have := scanNumber_length _ _ _ hk
        rw [← h.2]; simp only [List.length_cons] at this; omega
    · split at h
      · cases hk : scanLiteral ['r', 'u', 'e'] rest with
        | error e => simp [hk] at h
        | ok rest2 =>
          simp only [hk, Except.ok.injEq, Prod.mk.injEq] at h
          have := scanLiteral_length _ _ _ hk
          rw [← h.2]; omega
      · split at h
        · cases hk : scanLiteral ['a', 'l', 's', 'e'] rest with
          | error e => simp [hk] at h
          | ok rest2 =>
            simp only [hk, Except.ok.injEq, Prod.mk.injEq] at h
            have := scanLiteral_length _ _ _ hk
            rw [← h.2]; omega
        · split at h
          · cases hk : scanLiteral ['u', 'l', 'l'] rest with
            | error e => simp [hk] at h
            | ok rest2 =>
              simp only [hk, Except.ok.injEq, Prod.mk.injEq] at h
              have := scanLiteral_length _ _ _ hk
              rw [← h.2]; omega
          · simp at h

/-- The scan of a scalar value has no recursion budget to use up. -/
theorem parseScalar_not_exhausted (c : Char) (rest : List Char) :
    parseScalar c rest ≠ .error .exhausted := by
  simp only [parseScalar]
  split
  · have := scanString_not_exhausted rest .normal []
    cases hk : scanString .normal [] rest with
    | error e => simp only [ne_eq, Except.error.injEq]; intro he; exact this (by rw [hk, he])
    | ok kr => simp
  · split
    · have := scanNumber_not_exhausted (c :: rest)
      cases hk : scanNumber (c :: rest) with
      | error e => simp only [ne_eq, Except.error.injEq]; intro he; exact this (by rw [hk, he])
      | ok kr => simp
    · split
      · have := scanLiteral_not_exhausted ['r', 'u', 'e'] rest
        cases hk : scanLiteral ['r', 'u', 'e'] rest with
        | error e => simp only [ne_eq, Except.error.injEq]; intro he; exact this (by rw [hk, he])
        | ok kr => simp
      · split
        · have := scanLiteral_not_exhausted ['a', 'l', 's', 'e'] rest
          cases hk : scanLiteral ['a', 'l', 's', 'e'] rest with
          | error e => simp only [ne_eq, Except.error.injEq]; intro he; exact this (by rw [hk, he])
          | ok kr => simp
        · split
          · have := scanLiteral_not_exhausted ['u', 'l', 'l'] rest
            cases hk : scanLiteral ['u', 'l', 'l'] rest with
            | error e => simp only [ne_eq, Except.error.injEq]; intro he; exact this (by rw [hk, he])
            | ok kr => simp
          · simp

/-- A successful parse consumes at least one character. -/
theorem parse_consumes (lim : Option Nat) (fuel : Nat) :
    (∀ d cs v r, parseValue lim fuel d cs = .ok (v, r) → r.length < cs.length) ∧
    (∀ d cs acc v r, parseElems lim fuel d cs acc = .ok (v, r) → r.length + 1 < cs.length) ∧
    (∀ d cs acc v r, parseMembers lim fuel d cs acc = .ok (v, r) → r.length + 1 < cs.length) := by
  induction fuel with
  | zero => simp [parseValue, parseElems, parseMembers]
  | succ n ih =>
    obtain ⟨ihv, ihe, ihm⟩ := ih
    refine ⟨?_, ?_, ?_⟩
    · intro d cs v r h
      simp only [parseValue] at h
      cases hs : skipSpace cs with
      | nil => simp [hs] at h
      | cons c rest =>
        simp only [hs] at h
        have hlen := skipSpace_cons_length hs
        by_cases hc : c = '{'
        · simp only [hc, if_true] at h
          cases hex : exceeds lim (d + 1) with
          | true => simp [hex] at h
          | false =>
            simp only [hex] at h
            cases hs2 : skipSpace rest with
            | nil => simp [hs2] at h
            | cons c2 rest2 =>
              simp only [hs2] at h
              have hlen2 := skipSpace_cons_length hs2
              by_cases hc2 : c2 = '}'
              · simp only [hc2, if_true, Bool.false_eq_true, if_false, Except.ok.injEq,
                  Prod.mk.injEq] at h
                rw [← h.2]; omega
              · simp only [hc2, if_false, Bool.false_eq_true] at h
                have := ihm _ _ _ _ _ h
                simp only [List.length_cons] at this; omega
        · simp only [hc, if_false] at h
          by_cases hb : c = '['
          · simp only [hb, if_true] at h
            cases hex : exceeds lim (d + 1) with
            | true => simp [hex] at h
            | false =>
              simp only [hex] at h
              cases hs2 : skipSpace rest with
              | nil => simp [hs2] at h
              | cons c2 rest2 =>
                simp only [hs2] at h
                have hlen2 := skipSpace_cons_length hs2
                by_cases hc2 : c2 = ']'
                · simp only [hc2, if_true, Bool.false_eq_true, if_false, Except.ok.injEq,
                    Prod.mk.injEq] at h
                  rw [← h.2]; omega
                · simp only [hc2, if_false, Bool.false_eq_true] at h
                  have := ihe _ _ _ _ _ h
                  simp only [List.length_cons] at this; omega
          · simp only [hb, if_false] at h
            have := parseScalar_length _ _ _ _ h
            omega
    · intro d cs acc v r h
      simp only [parseElems] at h
      cases hv : parseValue lim n d cs with
      | error e => simp [hv] at h
      | ok vr =>
        obtain ⟨x, rest⟩ := vr
        simp only [hv] at h
        have h1 := ihv _ _ _ _ hv
        cases hs : skipSpace rest with
        | nil => simp [hs] at h
        | cons c rest2 =>
          simp only [hs] at h
          have hlen := skipSpace_cons_length hs
          by_cases hc : c = ','
          · simp only [hc, if_true] at h
            have := ihe _ _ _ _ _ h
            omega
          · simp only [hc, if_false] at h
            by_cases hb : c = ']'
            · simp only [hb, if_true, Except.ok.injEq, Prod.mk.injEq] at h
              rw [← h.2]; omega
            · simp [hb] at h
    · intro d cs acc v r h
      simp only [parseMembers] at h
      cases hs : skipSpace cs with
      | nil => simp [hs] at h
      | cons c rest =>
        simp only [hs] at h
        have hlen := skipSpace_cons_length hs
        by_cases hc : c = '"'
        · simp only [hc, if_true] at h
          cases hk : scanString .normal [] rest with
          | error e => simp [hk] at h
          | ok kr =>
            obtain ⟨us, rest2⟩ := kr
            simp only [hk] at h
            have hlen1 := scanString_length _ _ _ _ _ hk
            cases hs2 : skipSpace rest2 with
            | nil => simp [hs2] at h
            | cons c2 rest3 =>
              simp only [hs2] at h
              have hlen2 := skipSpace_cons_length hs2
              by_cases hc2 : c2 = ':'
              · simp only [hc2, if_true] at h
                cases hv : parseValue lim n d rest3 with
                | error e => simp [hv] at h
                | ok vr =>
                  obtain ⟨x, rest4⟩ := vr
                  simp only [hv] at h
                  have h1 := ihv _ _ _ _ hv
                  cases hs3 : skipSpace rest4 with
                  | nil => simp [hs3] at h
                  | cons c3 rest5 =>
                    simp only [hs3] at h
                    have hlen3 := skipSpace_cons_length hs3
                    by_cases hc3 : c3 = ','
                    · simp only [hc3, if_true] at h
                      have := ihm _ _ _ _ _ h
                      omega
                    · simp only [hc3, if_false] at h
                      by_cases hb : c3 = '}'
                      · simp only [hb, if_true, Except.ok.injEq, Prod.mk.injEq] at h
                        rw [← h.2]; omega
                      · simp [hb] at h
              · simp [hc2] at h
        · simp [hc] at h

/-- The recursion budget `2 * length + 1` is never used up. -/
theorem parse_not_exhausted (lim : Option Nat) (fuel : Nat) :
    (∀ d cs, 2 * cs.length < fuel → parseValue lim fuel d cs ≠ .error .exhausted) ∧
    (∀ d cs acc, 2 * cs.length + 1 < fuel → parseElems lim fuel d cs acc ≠ .error .exhausted) ∧
    (∀ d cs acc, 2 * cs.length + 1 < fuel →
      parseMembers lim fuel d cs acc ≠ .error .exhausted) := by
  induction fuel with
  | zero => simp
  | succ n ih =>
    obtain ⟨ihv, ihe, ihm⟩ := ih
    refine ⟨?_, ?_, ?_⟩
    · intro d cs hf
      simp only [parseValue]
      cases hs : skipSpace cs with
      | nil => simp
      | cons c rest =>
        simp only
        have hlen := skipSpace_cons_length hs
        by_cases hc : c = '{'
        · simp only [hc, if_true]
          cases hex : exceeds lim (d + 1) with
          | true => simp
          | false =>
            simp only [Bool.false_eq_true, if_false]
            cases hs2 : skipSpace rest with
            | nil => simp
            | cons c2 rest2 =>
              simp only
              have hlen2 := skipSpace_cons_length hs2
              by_cases hc2 : c2 = '}'
              · simp [hc2]
              · simp only [hc2, if_false]
                exact ihm _ _ _ (by simp only [List.length_cons]; omega)
        · simp only [hc, if_false]
          by_cases hb : c = '['
          · simp only [hb, if_true]
            cases hex : exceeds lim (d + 1) with
            | true => simp
            | false =>
              simp only [Bool.false_eq_true, if_false]
              cases hs2 : skipSpace rest with
              | nil => simp
              | cons c2 rest2 =>
                simp only
                have hlen2 := skipSpace_cons_length hs2
                by_cases hc2 : c2 = ']'
                · simp [hc2]
                · simp only [hc2, if_false]
                  exact ihe _ _ _ (by simp only [List.length_cons]; omega)
          · simp only [hb, if_false]
            exact parseScalar_not_exhausted _ _
    · intro d cs acc hf
      simp only [parseElems]
      have hv0 := ihv d cs (by omega)
      cases hv : parseValue lim n d cs with
      | error e =>
        simp only [ne_eq, Except.error.injEq]
        intro he; exact hv0 (by rw [hv, he])
      | ok vr =>
        obtain ⟨x, rest⟩ := vr
        simp only
        have h1 := (parse_consumes lim n).1 _ _ _ _ hv
        cases hs : skipSpace rest with
        | nil => simp
        | cons c rest2 =>
          simp only
          have hlen := skipSpace_cons_length hs
          by_cases hc : c = ','
          · simp only [hc, if_true]
            exact ihe _ _ _ (by omega)
          · simp only [hc, if_false]
            split <;> simp
    · intro d cs acc hf
      simp only [parseMembers]
      cases hs : skipSpace cs with
      | nil => simp
      | cons c rest =>
        simp only
        have hlen := skipSpace_cons_length hs
        by_cases hc : c = '"'
        · simp only [hc, if_true]
          have hk0 := scanString_not_exhausted rest .normal []
          cases hk : scanString .normal [] rest with
          | error e =>
            simp only [ne_eq, Except.error.injEq]
            intro he; exact hk0 (by rw [hk, he])
          | ok kr =>
            obtain ⟨us, rest2⟩ := kr
            simp only
            have hlen1 := scanString_length _ _ _ _ _ hk
            cases hs2 : skipSpace rest2 with
            | nil => simp
            | cons c2 rest3 =>
              simp only
              have hlen2 := skipSpace_cons_length hs2
              by_cases hc2 : c2 = ':'
              · simp only [hc2, if_true]
                have hv0 := ihv d rest3 (by omega)
                cases hv : parseValue lim n d rest3 with
                | error e =>
                  simp only [ne_eq, Except.error.injEq]
                  intro he; exact hv0 (by rw [hv, he])
                | ok vr =>
                  obtain ⟨x, rest4⟩ := vr
                  simp only
                  have h1 := (parse_consumes lim n).1 _ _ _ _ hv
                  cases hs3 : skipSpace rest4 with
                  | nil => simp
                  | cons c3 rest5 =>
                    simp only
                    have hlen3 := skipSpace_cons_length hs3
                    by_cases hc3 : c3 = ','
                    · simp only [hc3, if_true]
                      exact ihm _ _ _ (by omega)
                    · simp only [hc3, if_false]
                      split <;> simp
              · simp [hc2]
        · simp [hc]

/-- The digits of the `hex` table read back as their values. -/
theorem hexVal_hexDigit (k : Nat) (h : k < 16) : hexVal (hexDigit k) = some k := by
  interval_cases k <;> rfl

/-- A character is determined by its code point. -/
theorem char_eq_of_toNat {c : Char} {n : Nat} (h : c.toNat = n) : c = Char.ofNat n := by
  rw [← h, Char.ofNat_toNat]

/-- The escape `\u00XX` of a code unit below 256 scans as that code unit. -/
theorem scanString_escape_u00 (n : Nat) (hn : n < 256) (acc : List StrUnit) (rest : List Char) :
    scanString .normal acc
      ('\\' :: 'u' :: '0' :: '0' :: hexDigit (n / 16) :: hexDigit (n % 16) :: rest) =
    scanString .normal (.esc n :: acc) rest := by
  have h0 : hexVal '0' = some 0 := rfl
  have h1 := hexVal_hexDigit (n / 16) (by omega)
  have h2 := hexVal_hexDigit (n % 16) (by omega)
  have e1 : ('\\' : Char) ≠ '"' := by decide
  simp only [scanString, e1, if_false, if_true, h0, h1, h2]
  have hval : 16 * (16 * (16 * (16 * 0 + 0) + 0) + n / 16) + n % 16 = n := by omega
  rw [hval]

/-- The escapes of U+2028 and U+2029 scan as these code units. -/
theorem scanString_escape_u202 (n : Nat) (hn : n = 8232 ∨ n = 8233) (acc : List StrUnit)
    (rest : List Char) :
    scanString .normal acc
      ('\\' :: 'u' :: '2' :: '0' :: '2' :: hexDigit (n % 16) :: rest) =
    scanString .normal (.esc n :: acc) rest := by
  rcases hn with rfl | rfl <;> rfl

/-- What `quoteChar` writes for a character scans as one unit. -/
theorem scanString_quoteChar (c : Char) (acc : List StrUnit) (rest : List Char) :
    scanString .normal acc (quoteChar c ++ rest) = scanString .normal (quoteUnit c :: acc) rest := by
  simp only [quoteChar, quoteUnit]
  by_cases h1 : c = '\\' ∨ c = '"'
  · simp only [h1, if_true]
    rcases h1 with rfl | rfl <;> rfl
  · simp only [h1, if_false]
    by_cases h2 : c.toNat = 8
    · have := char_eq_of_toNat h2
      subst this
      rfl
    · by_cases h3 : c.toNat = 12
      · have := char_eq_of_toNat h3
        subst this
        rfl
      · by_cases h4 : c = '\n'
        · subst h4; rfl
        · by_cases h5 : c = '\r'
          · subst h5; rfl
          · by_cases h6 : c = '\t'
            · subst h6; rfl
            · simp only [h2, h3, h4, h5, h6, if_false, or_self]
              by_cases h7 : c.toNat < 32 ∨ c = '<' ∨ c = '>' ∨ c = '&'
              · simp only [h7, if_true]
                apply scanString_escape_u00
                rcases h7 with h | rfl | rfl | rfl
                · omega
                · decide
                · decide
                · decide
              · simp only [h7, if_false]
                by_cases h8 : c.toNat = 8232 ∨ c.toNat = 8233
                · simp only [h8, if_true]
                  exact scanString_escape_u202 _ h8 _ _
                · simp only [h8, if_false]
                  have e1 : c ≠ '"' := fun h => h1 (Or.inr h)
                  have e2 : c ≠ '\\' := fun h => h1 (Or.inl h)
                  have e3 : ¬ c.toNat < 32 := fun h => h7 (Or.inl h)
                  simp [scanString, e1, e2, e3]

/-- The text of a quoted string scans up to its closing quote. -/
theorem scanString_quote_body (s : List Char) :
    ∀ (acc : List StrUnit) (rest : List Char),
      scanString .normal acc ((s.map quoteChar).flatten ++ '"' :: rest) =
        .ok (acc.reverse ++ s.map quoteUnit, rest) := by
  induction s with
  | nil => intro acc rest; simp [scanString]
  | cons c s ih =>
    intro acc rest
    simp only [List.map_cons, List.flatten_cons, List.append_assoc]
    rw [scanString_quoteChar, ih]
    simp

/-- The units of a quoted string decode to the string. -/
theorem decodeUnits_quoteUnit (s : List Char) : decodeUnits none (s.map quoteUnit) = s := by
  induction s with
  | nil => rfl
  | cons c s ih =>
    simp only [List.map_cons, quoteUnit]
    by_cases h1 : c = '\\' ∨ c = '"'
    · simp [h1, decodeUnits, ih]
    · simp only [h1, if_false]
      by_cases h2 : c.toNat = 8 ∨ c.toNat = 12 ∨ c = '\n' ∨ c = '\r' ∨ c = '\t'
      · simp [h2, decodeUnits, ih]
      · simp only [h2, if_false]
        by_cases h7 : c.toNat < 32 ∨ c = '<' ∨ c = '>' ∨ c = '&'
        · simp only [h7, if_true, decodeUnits]
          have hlt : c.toNat < 64 := by
            rcases h7 with h | rfl | rfl | rfl
            · omega
            · decide
            · decide
            · decide
          have a1 : ¬ (55296 ≤ c.toNat ∧ c.toNat < 56320) := by omega
          have a2 : ¬ (56320 ≤ c.toNat ∧ c.toNat < 57344) := by omega
          simp [a1, a2, ih]
        · simp only [h7, if_false]
          by_cases h8 : c.toNat = 8232 ∨ c.toNat = 8233
          · simp only [h8, if_true, decodeUnits]
            have a1 : ¬ (55296 ≤ c.toNat ∧ c.toNat < 56320) := by omega
            have a2 : ¬ (56320 ≤ c.toNat ∧ c.toNat < 57344) := by omega
            simp [a1, a2, ih]
          · simp [h8, decodeUnits, ih]

/-- A quoted string scans back to the string. -/
theorem parseScalar_quote (s rest : List Char) :
    parseScalar '"' ((s.map quoteChar).flatten ++ '"' :: rest) = .ok (.string s, rest) := by
  simp [parseScalar, scanString_quote_body, decodeUnits_quoteUnit]

/-- A quoted string is read as the string value. -/
theorem parseValue_quote (lim : Option Nat) (fuel d : Nat) (s rest : List Char) :
    parseValue lim (fuel + 1) d ('"' :: ((s.map quoteChar).flatten ++ '"' :: rest)) =
      .ok (.string s, rest) := by
  have hs : skipSpace ('"' :: ((s.map quoteChar).flatten ++ '"' :: rest)) =
      '"' :: ((s.map quoteChar).flatten ++ '"' :: rest) := rfl
  have e1 : ('"' : Char) ≠ '{' := by decide
  have e2 : ('"' : Char) ≠ '[' := by decide
  simp only [parseValue, hs, e1, e2, if_false, parseScalar_quote]

/-- The text `Marshal` writes for the payload of `Query` is well-formed JSON
for the object with the members `model` and `prompt`. -/
theorem payload_wellFormed (model prompt : List Char) :
    Spec.wellFormed ("\x7b\"model\":".data ++ quote model ++ ",\"prompt\":".data
        ++ quote prompt ++ "\x7d".data) =
      some (.object [("model".data, .string model), ("prompt".data, .string prompt)]) := by
  have hbody : "\x7b\"model\":".data ++ quote model ++ ",\"prompt\":".data
        ++ quote prompt ++ "\x7d".data =
      '{' :: '"' :: 'm' :: 'o' :: 'd' :: 'e' :: 'l' :: '"' :: ':' :: '"' ::
        ((model.map quoteChar).flatten ++ '"' :: ',' :: '"' :: 'p' :: 'r' :: 'o' :: 'm' :: 'p'
          :: 't' :: '"' :: ':' :: '"' :: ((prompt.map quoteChar).flatten ++ '"' :: ['}'])) := by
    simp [quote]
  rw [hbody]
  generalize hF : (model.map quoteChar).flatten = fm
  generalize hP : (prompt.map quoteChar).flatten = fp
  obtain ⟨n, hn⟩ : ∃ n, 2 * ('{' :: '"' :: 'm' :: 'o' :: 'd' :: 'e' :: 'l' :: '"' :: ':' :: '"' ::
        (fm ++ '"' :: ',' :: '"' :: 'p' :: 'r' :: 'o' :: 'm' :: 'p'
          :: 't' :: '"' :: ':' :: '"' :: (fp ++ '"' :: ['}']))).length + 1 = n + 4 :=
    ⟨2 * ('{' :: '"' :: 'm' :: 'o' :: 'd' :: 'e' :: 'l' :: '"' :: ':' :: '"' ::
        (fm ++ '"' :: ',' :: '"' :: 'p' :: 'r' :: 'o' :: 'm' :: 'p'
          :: 't' :: '"' :: ':' :: '"' :: (fp ++ '"' :: ['}']))).length + 1 - 4, by
      simp only [List.length_cons, List.length_append]; omega⟩
  simp only [Spec.wellFormed, Spec.firstValue, hn]
  subst hF hP
  have step4 : parseValue none (n + 1) 1 ('"' :: ((prompt.map quoteChar).flatten ++ '"' :: ['}']))
      = .ok (.string prompt, ['}']) := parseValue_quote _ _ _ _ _
  have step3 : parseMembers none (n + 2) 1
      ('"' :: 'p' :: 'r' :: 'o' :: 'm' :: 'p' :: 't' :: '"' :: ':' :: '"' ::
        ((prompt.map quoteChar).flatten ++ '"' :: ['}'])) [("model".data, .string model)] =
      .ok (.object [("model".data, .string model), ("prompt".data, .string prompt)], []) := by
    have hk : scanString .normal [] ('p' :: 'r' :: 'o' :: 'm' :: 'p' :: 't' :: '"' :: ':' :: '"' ::
        ((prompt.map quoteChar).flatten ++ '"' :: ['}'])) =
        .ok ([.lit 'p', .lit 'r', .lit 'o', .lit 'm', .lit 'p', .lit 't'], ':' :: '"' ::
        ((prompt.map quoteChar).flatten ++ '"' :: ['}'])) := rfl
    have hs1 : skipSpace ('"' :: 'p' :: 'r' :: 'o' :: 'm' :: 'p' :: 't' :: '"' :: ':' :: '"' ::
        ((prompt.map quoteChar).flatten ++ '"' :: ['}'])) =
        '"' :: 'p' :: 'r' :: 'o' :: 'm' :: 'p' :: 't' :: '"' :: ':' :: '"' ::
        ((prompt.map quoteChar).flatten ++ '"' :: ['}']) := rfl
    have hs2 : skipSpace (':' :: '"' :: ((prompt.map quoteChar).flatten ++ '"' :: ['}'])) =
        ':' :: '"' :: ((prompt.map quoteChar).flatten ++ '"' :: ['}']) := rfl
    have hs3 : skipSpace ['}'] = ['}'] := rfl
    have e1 : ('}' : Char) ≠ ',' := by decide
    simp only [parseMembers, hs1, hk, hs2, step4, hs3, if_true, e1, if_false]
    rfl
  have step2 : parseValue none (n + 2) 1 ('"' :: ((model.map quoteChar).flatten ++ '"' :: ',' ::
      '"' :: 'p' :: 'r' :: 'o' :: 'm' :: 'p' :: 't' :: '"' :: ':' :: '"' ::
        ((prompt.map quoteChar).flatten ++ '"' :: ['}'])))
      = .ok (.string model, ',' ::
      '"' :: 'p' :: 'r' :: 'o' :: 'm' :: 'p' :: 't' :: '"' :: ':' :: '"' ::
        ((prompt.map quoteChar).flatten ++ '"' :: ['}'])) := parseValue_quote _ _ _ _ _
  have step1 : parseMembers none (n + 3) 1
      ('"' :: 'm' :: 'o' :: 'd' :: 'e' :: 'l' :: '"' :: ':' :: '"' ::
        ((model.map quoteChar).flatten ++ '"' :: ',' :: '"' :: 'p' :: 'r' :: 'o' :: 'm' :: 'p'
          :: 't' :: '"' :: ':' :: '"' :: ((prompt.map quoteChar).flatten ++ '"' :: ['}']))) [] =
      .ok (.object [("model".data, .string model), ("prompt".data, .string prompt)], []) := by
    have hs1 : ∀ rest, skipSpace ('"' :: rest) = '"' :: rest := fun _ => rfl
    have hs2 : ∀ rest, skipSpace (':' :: rest) = ':' :: rest := fun _ => rfl
    have hs3 : ∀ rest, skipSpace (',' :: rest) = ',' :: rest := fun _ => rfl
    have hk : ∀ rest, scanString .normal [] ('m' :: 'o' :: 'd' :: 'e' :: 'l' :: '"' :: rest) =
        .ok ([.lit 'm', .lit 'o', .lit 'd', .lit 'e', .lit 'l'], rest) := fun _ => rfl
    simp only [parseMembers, hs1, hk, hs2, step2, hs3, if_true]
    exact step3
  have hs0 : ∀ rest, skipSpace ('{' :: rest) = '{' :: rest := fun _ => rfl
  have hs1 : ∀ rest, skipSpace ('"' :: rest) = '"' :: rest := fun _ => rfl
  have e1 : ('"' : Char) ≠ '}' := by decide
  simp only [parseValue, hs0, hs1, exceeds_none, if_true, e1, if_false, Bool.false_eq_true,
    step1]
  rfl

/-! ## The client: the request -/

/-- The payload of `Query`, sorted by key: `model` before `prompt`. -/
theorem sortByKey_payload (model prompt : List Char) :
    sortByKey (mapSet "prompt".data prompt (mapSet "model".data model [])) =
      [("model".data, model), ("prompt".data, prompt)] := by
  rfl

/-- The request `Query` builds when `url.Parse` accepts its URL. -/
theorem buildRequest_of_urlParses (net : Network) (c : OllamaClient) (p : String)
    (h : urlParses net (c.BaseURL ++ "/api/completions") = true) :
    buildRequest net c p = some ⟨"POST", c.BaseURL ++ "/api/completions",
      [("Content-Type", "application/json")],
      "\x7b\"model\":".data ++ quote c.Model.data ++ ",\"prompt\":".data ++ quote p.data
        ++ "\x7d".data⟩ := by
  have hm : quote "model".data = "\"model\"".data := rfl
  have hp : quote "prompt".data = "\"prompt\"".data := rfl
  simp only [buildRequest, NewRequest, h, if_true, Marshal, sortByKey_payload]
  simp [headerSet, marshalMembers, hm, hp]

/-- What a run did, by the result of the round trip. -/
theorem query_of_request (net : Network) (c : OllamaClient) (p : String) (req : Request)
    (h : buildRequest net c p = some req) :
    (Query net c p).requests = [(req, c.Timeout)] := by
  simp only [Query, h]
  cases net.roundTrip req c.Timeout with
  | error e => rfl
  | ok resp =>
    simp only
    cases Decode resp.body <;> rfl

/-- C1, failing input: the client with the base URL
`"http://localhost:11434\n"` (a line feed at its end), the model `llama2`
and the prompt `What's the weather?`.  `url.Parse` refuses the control byte,
`http.NewRequest` returns a nil request and an error, line 24 discards the
error, and line 25 dereferences the nil request: `Query` panics and issues
no request at all, on a backend that would answer and on every other
network, where the claim has it issue the POST request. -/
theorem query_panics_on_control_byte :
    (Query (serverReturning 200 "\x7b\"response\":\"It's sunny.\"\x7d")
        ⟨"http://localhost:11434\n", "llama2", 5 * Second⟩ "What's the weather?").outcome =
      .panicked ∧
    (Query (serverReturning 200 "\x7b\"response\":\"It's sunny.\"\x7d")
        ⟨"http://localhost:11434\n", "llama2", 5 * Second⟩ "What's the weather?").requests =
      [] ∧
    ∀ net : Network,
      (Query net ⟨"http://localhost:11434\n", "llama2", 5 * Second⟩
          "What's the weather?").outcome = .panicked ∧
      (Query net ⟨"http://localhost:11434\n", "llama2", 5 * Second⟩
          "What's the weather?").requests = [] :=
  ⟨rfl, rfl, fun _ => ⟨rfl, rfl⟩⟩

/-- The request of `Query` where `http.NewRequest` succeeds, for strings that
are valid UTF-8: for every client whose URL string (base URL followed by `/api/completions`) is accepted by
`url.Parse`, and every prompt, the empty one included, `Query` calls
`client.Do` once, with a POST request made from that URL string, with
`Content-Type: application/json`, whose body is the text of the object with
the keys `model` and `prompt` in this order, valued by the quoted model and
prompt; this text is well-formed JSON that denotes exactly these two
members; for the model `llama2` and the prompt `What's the weather?` the
body is `{"model":"llama2","prompt":"What's the weather?"}`. -/
theorem query_issues_post_request (net : Network) (c : OllamaClient) (p : String)
    (h : urlParses net (c.BaseURL ++ "/api/completions") = true) :
    (∃ req, (Query net c p).requests = [(req, c.Timeout)] ∧
      req.method = "POST" ∧
      req.rawURL = c.BaseURL ++ "/api/completions" ∧
      headerGet "Content-Type" req.header = some "application/json" ∧
      req.body = "\x7b\"model\":".data ++ quote c.Model.data ++ ",\"prompt\":".data
        ++ quote p.data ++ "\x7d".data ∧
      Spec.wellFormed req.body =
        some (.object [("model".data, .string c.Model.data), ("prompt".data, .string p.data)])) ∧
    (c.Model = "llama2" → p = "What's the weather?" →
      ∃ req, (Query net c p).requests = [(req, c.Timeout)] ∧
        req.body = "\x7b\"model\":\"llama2\",\"prompt\":\"What's the weather?\"\x7d".data) ∧
    (p = "" →
      ∃ req, (Query net c p).requests = [(req, c.Timeout)] ∧
        req.body = "\x7b\"model\":".data ++ quote c.Model.data ++ ",\"prompt\":\"\"\x7d".data) := by
  have hb := buildRequest_of_urlParses net c p h
  have hq := query_of_request net c p _ hb
  refine ⟨⟨_, hq, rfl, rfl, ?_, rfl, payload_wellFormed _ _⟩, ?_, ?_⟩
  · simp [headerGet]
  · intro hm hp
    refine ⟨_, hq, ?_⟩
    simp only [hm, hp]
    rfl
  · intro hp
    refine ⟨_, hq, ?_⟩
    subst hp
    simp [quote]

/-- The scenario of the specification, where the base URL parses. -/
theorem query_issues_post_request_witness :
    urlParses (serverReturning 200 "") ("http://localhost:11434" ++ "/api/completions") = true ∧
    ∃ req, (Query (serverReturning 200 "") (New "http://localhost:11434" "llama2")
        "What's the weather?").requests = [(req, 5 * Second)] ∧
      req.body = "\x7b\"model\":\"llama2\",\"prompt\":\"What's the weather?\"\x7d".data :=
  ⟨by rfl, (query_issues_post_request (serverReturning 200 "")
    (New "http://localhost:11434" "llama2") "What's the weather?" (by rfl)).2.1 rfl rfl⟩

/-! ## The client: the response -/

/-- A text with a value in it is not all white space. -/
theorem parseValue_ok_skipSpace_ne_nil (lim : Option Nat) (fuel d : Nat) (cs : List Char)
    (r : JSON × List Char) (h : parseValue lim fuel d cs = .ok r) : skipSpace cs ≠ [] := by
  cases fuel with
  | zero => simp [parseValue] at h
  | succ n =>
    intro hs
    simp [parseValue, hs] at h

/-- `Decode` on a stream that starts with a complete JSON object. -/
theorem Decode_object (b : Body) (ms : List (List Char × JSON)) (rest : List Char)
    (hp : parseValue none (2 * b.data.length + 1) 0 b.data = .ok (.object ms, rest))
    (hd : (JSON.object ms).depth ≤ maxNestingDepth)
    (hr : (JSON.object ms).inRange = true) :
    Decode b = .ok (some (Spec.decodedMap ms [])) := by
  have hlim := (parse_limit_add maxNestingDepth _).1 0 _ _ _ hp (by omega)
  have hne := parseValue_ok_skipSpace_ne_nil _ _ _ _ _ hp
  simp only [JSON.inRange] at hr
  simp [Decode, hne, hlim, JSON.isScalar, unmarshalMap, toGoMap_of_inRange ms [] hr]

/-- `Decode` on a stream, wholly delivered, that does not start with `null`
or an object within the nesting limit: the error is the decoder's own, `EOF`
for a blank stream and the type error of `unmarshalMap` for a value that is
scanned. -/
theorem Decode_error (b : Body) (heof : b.readErr = none)
    (hfirst : ∀ v rest, Spec.firstValue b.data = some (v, rest) → v.mapShaped = false) :
    ∃ e, Decode b = .error (.decode e) ∧
      (skipSpace b.data = [] → e = .eof) ∧
      (∀ v rest, Spec.firstValue b.data = some (v, rest) → v.depth ≤ maxNestingDepth →
        unmarshalMap v = .error e) := by
  have hnotok : ∀ v rest, Spec.firstValue b.data = some (v, rest) → skipSpace b.data ≠ [] := by
    intro v rest h hs
    simp only [Spec.firstValue] at h
    cases hp : parseValue none (2 * b.data.length + 1) 0 b.data with
    | error e => simp [hp] at h
    | ok r => exact parseValue_ok_skipSpace_ne_nil _ _ _ _ _ hp hs
  by_cases hblank : skipSpace b.data = []
  · refine ⟨.eof, by simp [Decode, hblank, atEndOfData, heof], fun _ => rfl, ?_⟩
    intro v rest h _
    exact absurd hblank (hnotok v rest h)
  · cases hp : parseValue (some maxNestingDepth) (2 * b.data.length + 1) 0 b.data with
    | error e =>
      have hnone : ∀ v rest, Spec.firstValue b.data = some (v, rest) →
          ¬ v.depth ≤ maxNestingDepth := by
        intro v rest h hd
        simp only [Spec.firstValue] at h
        cases hq : parseValue none (2 * b.data.length + 1) 0 b.data with
        | error e' => simp [hq] at h
        | ok r =>
          simp only [hq, Option.some.injEq] at h
          rw [h] at hq
          have := (parse_limit_add maxNestingDepth _).1 0 _ _ _ hq (by omega)
          rw [this] at hp
          exact Except.noConfusion hp
      cases e with
      | truncated =>
        exact ⟨.unexpectedEOF, by simp [Decode, hblank, hp, atEndOfData, heof],
          fun h => absurd h hblank, fun v rest h hd => absurd hd (hnone v rest h)⟩
      | invalid =>
        exact ⟨.malformed, by simp [Decode, hblank, hp],
          fun h => absurd h hblank, fun v rest h hd => absurd hd (hnone v rest h)⟩
      | exhausted =>
        exact ⟨.malformed, by simp [Decode, hblank, hp],
          fun h => absurd h hblank, fun v rest h hd => absurd hd (hnone v rest h)⟩
    | ok vr =>
      obtain ⟨v, rest⟩ := vr
      have hfree := (parse_limit_drop maxNestingDepth _).1 _ _ _ hp
      have hdepth := (parse_depth_le maxNestingDepth _).1 _ _ _ _ hp (Nat.zero_le _)
      have hfv : Spec.firstValue b.data = some (v, rest) := by simp [Spec.firstValue, hfree]
      have hst : v.mapShaped = false := hfirst v rest hfv
      have hun : ∃ e, unmarshalMap v = .error e := by
        cases v with
        | null => simp [JSON.mapShaped] at hst
        | object ms =>
          have hd : (JSON.object ms).depth ≤ maxNestingDepth := by omega
          simp [JSON.mapShaped, hd] at hst
        | bool b => exact ⟨_, rfl⟩
        | number n => exact ⟨_, rfl⟩
        | string s => exact ⟨_, rfl⟩
        | array xs => exact ⟨_, rfl⟩
      obtain ⟨e, he⟩ := hun
      refine ⟨e, by simp [Decode, hblank, hp, heof, he], fun h => absurd h hblank, ?_⟩
      intro v' rest' h' _
      rw [hfv] at h'
      simp only [Option.some.injEq, Prod.mk.injEq] at h'
      rw [← h'.1]
      exact he

/-- `Decode` on a stream that starts with `null`, with more of the stream to
follow or with `io.EOF`. -/
theorem Decode_null (b : Body) (rest : List Char)
    (hp : parseValue none (2 * b.data.length + 1) 0 b.data = .ok (.null, rest))
    (hend : rest ≠ [] ∨ b.readErr = none) :
    Decode b = .ok none := by
  have hlim := (parse_limit_add maxNestingDepth _).1 0 _ _ _ hp (by simp [JSON.depth])
  have hne := parseValue_ok_skipSpace_ne_nil _ _ _ _ _ hp
  have hcond : ¬ (JSON.null.isScalar = true ∧ rest = [] ∧ b.readErr.isSome = true) := by
    rintro ⟨_, h1, h2⟩
    rcases hend with h | h
    · exact h h1
    · rw [h] at h2; simp at h2
  simp [Decode, hne, hlim, hcond, unmarshalMap]

/-- A run of `Query` whose round trip yields a response. -/
theorem query_of_response (net : Network) (c : OllamaClient) (p : String) (req : Request)
    (resp : Response) (hreq : buildRequest net c p = some req)
    (hdo : net.roundTrip req c.Timeout = .ok resp) :
    Query net c p =
      match Decode resp.body with
      | .error e => ⟨.returned none (some e), [.httpDo req c.Timeout, .decodeBody, .closeBody]⟩
      | .ok out => ⟨.returned out none, [.httpDo req c.Timeout, .decodeBody, .closeBody]⟩ := by
  simp only [Query, hreq, hdo]

/-- C2, counterexample: the body `[]` is well-formed JSON, and `Query`
returns an error for it, since an array cannot be stored into a map. -/
theorem query_rejects_wellformed_array :
    Spec.wellFormed "[]".data = some (.array []) ∧
    (Query (serverReturning 200 "[]") (New "http://localhost:11434" "llama2")
        "What's the weather?").outcome =
      .returned none (some (.decode (.typeMismatch "array".data))) :=
  ⟨rfl, rfl⟩

/-- Nested brackets beyond the limit are refused at the bracket that exceeds
it. -/
theorem parseValue_too_deep (L : Nat) (k : Nat) :
    ∀ d fuel rest, L < d + (k + 1) → 2 * (k + 1) ≤ fuel →
      parseValue (some L) fuel d (List.replicate (k + 1) '[' ++ rest) = .error .invalid := by
  induction k with
  | zero =>
    intro d fuel rest hL hf
    obtain ⟨n, rfl⟩ : ∃ n, fuel = n + 1 := ⟨fuel - 1, by omega⟩
    have hs : skipSpace ('[' :: rest) = '[' :: rest := rfl
    have e1 : ('[' : Char) ≠ '{' := by decide
    have hex : exceeds (some L) (d + 1) = true := by simp [exceeds]; omega
    simp [List.replicate, parseValue, hs, e1, hex]
  | succ k ih =>
    intro d fuel rest hL hf
    obtain ⟨n, rfl⟩ : ∃ n, fuel = n + 2 := ⟨fuel - 2, by omega⟩
    have hrep : List.replicate (k + 1 + 1) '[' ++ rest =
        '[' :: (List.replicate (k + 1) '[' ++ rest) := rfl
    have hrep2 : List.replicate (k + 1) '[' ++ rest = '[' :: (List.replicate k '[' ++ rest) := rfl
    have hs : ∀ t, skipSpace ('[' :: t) = '[' :: t := fun _ => rfl
    have e1 : ('[' : Char) ≠ '{' := by decide
    have e2 : ('[' : Char) ≠ ']' := by decide
    rw [hrep]
    simp only [parseValue, hs, e1, if_false, if_true]
    by_cases hex : exceeds (some L) (d + 1) = true
    · simp [hex]
    · simp only [hex, if_false]
      rw [hrep2]
      simp only [hs, e2, if_false, parseElems]
      rw [← hrep2, ih (d + 1) n rest (by omega) (by omega)]
      simp

/-- Nested empty arrays are well-formed, whatever their depth. -/
theorem parseValue_nestedArray (k : Nat) :
    ∀ d fuel rest, 2 * (k + 1) ≤ fuel →
      parseValue none fuel d (List.replicate (k + 1) '[' ++ (List.replicate (k + 1) ']' ++ rest))
        = .ok (nestedArray k, rest) := by
  induction k with
  | zero =>
    intro d fuel rest hf
    obtain ⟨n, rfl⟩ : ∃ n, fuel = n + 1 := ⟨fuel - 1, by omega⟩
    have hs : ∀ t, skipSpace ('[' :: t) = '[' :: t := fun _ => rfl
    have hs2 : ∀ t, skipSpace (']' :: t) = ']' :: t := fun _ => rfl
    have e1 : ('[' : Char) ≠ '{' := by decide
    simp [List.replicate, parseValue, hs, hs2, e1, exceeds_none, nestedArray]
  | succ k ih =>
    intro d fuel rest hf
    obtain ⟨n, rfl⟩ : ∃ n, fuel = n + 2 := ⟨fuel - 2, by omega⟩
    have hrep : List.replicate (k + 1 + 1) '[' ++ (List.replicate (k + 1 + 1) ']' ++ rest) =
        '[' :: (List.replicate (k + 1) '[' ++ (List.replicate (k + 1) ']' ++ (']' :: rest))) := by
      rw [List.replicate_succ' (k + 1) ']']
      simp [List.replicate]
    have hrep2 : ∀ t, List.replicate (k + 1) '[' ++ t = '[' :: (List.replicate k '[' ++ t) :=
      fun _ => rfl
    have hs : ∀ t, skipSpace ('[' :: t) = '[' :: t := fun _ => rfl
    have hs2 : ∀ t, skipSpace (']' :: t) = ']' :: t := fun _ => rfl
    have e1 : ('[' : Char) ≠ '{' := by decide
    have e2 : ('[' : Char) ≠ ']' := by decide
    have e3 : (']' : Char) ≠ ',' := by decide
    rw [hrep]
    simp only [parseValue, hs, e1, if_false, if_true, exceeds_none, Bool.false_eq_true]
    rw [hrep2]
    simp only [hs, e2, if_false, parseElems]
    rw [← hrep2, ih (d + 1) n (']' :: rest) (by omega)]
    simp [hs2, e3, nestedArray]

theorem deepBody_length (k : Nat) : (deepBody k).length = 2 * k + 8 := by
  simp [deepBody]
  omega

/-- The object with a member nested `k + 1` arrays deep is well-formed
JSON. -/
theorem deepBody_wellFormed (k : Nat) :
    Spec.wellFormed (deepBody k) = some (.object [("a".data, nestedArray k)]) := by
  have hlen := deepBody_length k
  obtain ⟨n, hn⟩ : ∃ n, 2 * (deepBody k).length + 1 = n + 2 := ⟨4 * k + 15, by omega⟩
  have hfuel : 2 * (k + 1) ≤ n := by omega
  simp only [Spec.wellFormed, Spec.firstValue, hn]
  have hbody : deepBody k = '{' :: '"' :: 'a' :: '"' :: ':' ::
      (List.replicate (k + 1) '[' ++ (List.replicate (k + 1) ']' ++ ['}'])) := rfl
  rw [hbody]
  have hs0 : ∀ t, skipSpace ('{' :: t) = '{' :: t := fun _ => rfl
  have hs1 : ∀ t, skipSpace ('"' :: t) = '"' :: t := fun _ => rfl
  have hs2 : ∀ t, skipSpace (':' :: t) = ':' :: t := fun _ => rfl
  have hs3 : ∀ t, skipSpace ('}' :: t) = '}' :: t := fun _ => rfl
  have hk : ∀ t, scanString .normal [] ('a' :: '"' :: t) = .ok ([.lit 'a'], t) := fun _ => rfl
  have e1 : ('"' : Char) ≠ '}' := by decide
  have e2 : ('}' : Char) ≠ ',' := by decide
  simp only [parseValue, parseMembers, hs0, hs1, hs2, hs3, hk, e1, e2, if_true, if_false,
    exceeds_none, Bool.false_eq_true, parseValue_nestedArray k 1 n ['}'] hfuel]
  rfl

/-- The object with a member nested `k + 1` arrays deep is refused by
`Decode` once its depth, `k + 2`, is beyond the limit. -/
theorem deepBody_refused (k : Nat) (hk : maxNestingDepth ≤ k + 1) :
    Decode ⟨deepBody k, none⟩ = .error (.decode .malformed) := by
  have hlen := deepBody_length k
  obtain ⟨n, hn⟩ : ∃ n, 2 * (deepBody k).length + 1 = n + 2 := ⟨4 * k + 15, by omega⟩
  have hfuel : 2 * (k + 1) ≤ n := by omega
  have hbody : deepBody k = '{' :: '"' :: 'a' :: '"' :: ':' ::
      (List.replicate (k + 1) '[' ++ (List.replicate (k + 1) ']' ++ ['}'])) := rfl
  have hne : skipSpace (deepBody k) ≠ [] := by
    rw [hbody]
    simp [skipSpace, isSpace]
  simp only [Decode, hne, if_false, hn]
  rw [hbody]
  have hs0 : ∀ t, skipSpace ('{' :: t) = '{' :: t := fun _ => rfl
  have hs1 : ∀ t, skipSpace ('"' :: t) = '"' :: t := fun _ => rfl
  have hs2 : ∀ t, skipSpace (':' :: t) = ':' :: t := fun _ => rfl
  have hk1 : ∀ t, scanString .normal [] ('a' :: '"' :: t) = .ok ([.lit 'a'], t) := fun _ => rfl
  have e1 : ('"' : Char) ≠ '}' := by decide
  have hex : exceeds (some maxNestingDepth) (0 + 1) = false := by decide
  simp only [parseValue, parseMembers, hs0, hs1, hs2, hk1, e1, if_true, if_false, hex,
    Bool.false_eq_true,
    parseValue_too_deep maxNestingDepth k 1 n _ (by omega) hfuel]

/-- An object nested 10001 deep is well-formed JSON that `Decode` refuses:
the limit in the amended claim C2 is needed. -/
theorem decode_rejects_deep_nesting :
    Spec.wellFormed (deepBody 9999) = some (.object [("a".data, nestedArray 9999)]) ∧
    Decode ⟨deepBody 9999, none⟩ = .error (.decode .malformed) :=
  ⟨deepBody_wellFormed 9999, deepBody_refused 9999 (by decide)⟩

set_option exponentiation.threshold 2000 in
/-- A number beyond the range of a `float64` makes a well-formed object
fail: the limit in the amended claim C2 is needed. -/
theorem query_rejects_number_out_of_range :
    Spec.wellFormed "\x7b\"a\":1e999\x7d".data =
      some (.object [("a".data, .number ⟨false, ['1'], [], some 'e', none, ['9', '9', '9']⟩)]) ∧
    (Query (serverReturning 200 "\x7b\"a\":1e999\x7d") (New "http://localhost:11434" "llama2")
        "What's the weather?").outcome =
      .returned none (some (.decode (.typeMismatch "number 1e999".data))) :=
  ⟨rfl, rfl⟩

/-- C2, amended: for every response body that is well-formed JSON and whose
value is an object, nested at most 10000 deep and with every number within
the range of a 64-bit float, `Query` returns no error and the mapping equal
to the decoded JSON of that body, and the response stream is closed exactly
once; for a body, delivered whole, whose value is `null` it returns no error
and the nil mapping; for the body `{"response":"It's sunny."}` the result
maps `response` to `It's sunny.`. -/
theorem query_returns_decoded_object (net : Network) (c : OllamaClient) (p : String)
    (req : Request) (resp : Response)
    (hreq : buildRequest net c p = some req)
    (hdo : net.roundTrip req c.Timeout = .ok resp) :
    (∀ ms, Spec.wellFormed resp.body.data = some (.object ms) →
      (JSON.object ms).depth ≤ maxNestingDepth → (JSON.object ms).inRange = true →
      (Query net c p).outcome = .returned (some (Spec.decodedMap ms [])) none ∧
      (Query net c p).closes = 1) ∧
    (Spec.wellFormed resp.body.data = some .null → resp.body.readErr = none →
      (Query net c p).outcome = .returned none none ∧ (Query net c p).closes = 1) ∧
    (resp.body.data = "\x7b\"response\":\"It's sunny.\"\x7d".data →
      ∃ m, (Query net c p).outcome = .returned (some m) none ∧
        mapGet "response".data m = some (.string "It's sunny.".data)) := by
  have hq := query_of_response net c p req resp hreq hdo
  have hfirst : ∀ v, Spec.wellFormed resp.body.data = some v →
      ∃ rest, parseValue none (2 * resp.body.data.length + 1) 0 resp.body.data
        = .ok (v, rest) := by
    intro v hwf
    simp only [Spec.wellFormed, Spec.firstValue] at hwf
    cases hp : parseValue none (2 * resp.body.data.length + 1) 0 resp.body.data with
    | error e => simp [hp] at hwf
    | ok vr =>
      obtain ⟨v', rest⟩ := vr
      simp only [hp] at hwf
      by_cases hs : skipSpace rest = []
      · simp only [hs, if_true, Option.some.injEq] at hwf
        exact ⟨rest, by rw [hwf]⟩
      · simp [hs] at hwf
  have hobj : ∀ ms, Spec.wellFormed resp.body.data = some (.object ms) →
      (JSON.object ms).depth ≤ maxNestingDepth → (JSON.object ms).inRange = true →
      (Query net c p).outcome = .returned (some (Spec.decodedMap ms [])) none ∧
      (Query net c p).closes = 1 := by
    intro ms hwf hdepth hrange
    obtain ⟨rest, hp⟩ := hfirst _ hwf
    have hdec := Decode_object resp.body ms rest hp hdepth hrange
    simp only [hdec] at hq
    exact ⟨by rw [hq], by rw [hq]; rfl⟩
  refine ⟨hobj, ?_, ?_⟩
  · intro hwf heof
    obtain ⟨rest, hp⟩ := hfirst _ hwf
    have hdec := Decode_null resp.body rest hp (Or.inr heof)
    simp only [hdec] at hq
    exact ⟨by rw [hq], by rw [hq]; rfl⟩
  · intro hbody
    have hwf : Spec.wellFormed resp.body.data =
        some (.object [("response".data, .string "It's sunny.".data)]) := by
      rw [hbody]; rfl
    exact ⟨_, (hobj _ hwf (by decide) rfl).1, rfl⟩

/-- C2, witness: the scenario of the specification. -/
theorem query_returns_decoded_object_witness :
    (Query (serverReturning 200 "\x7b\"response\":\"It's sunny.\"\x7d")
        (New "http://localhost:11434" "llama2") "What's the weather?").outcome =
      .returned (some [("response".data, .string "It's sunny.".data)]) none ∧
    (Query (serverReturning 200 "\x7b\"response\":\"It's sunny.\"\x7d")
        (New "http://localhost:11434" "llama2") "What's the weather?").closes = 1 :=
  (query_returns_decoded_object (serverReturning 200 "\x7b\"response\":\"It's sunny.\"\x7d")
    (New "http://localhost:11434" "llama2") "What's the weather?"
    ⟨"POST", "http://localhost:11434/api/completions", [("Content-Type", "application/json")],
      "\x7b\"model\":\"llama2\",\"prompt\":\"What's the weather?\"\x7d".data⟩
    ⟨200, ⟨"\x7b\"response\":\"It's sunny.\"\x7d".data, none⟩⟩ rfl rfl).1
    [("response".data, .string "It's sunny.".data)] rfl (by decide) rfl

/-- C3, counterexample: a JSON object followed by garbage is malformed as a
whole, and `Query` returns the object and no error: the decoder reads the
first value of the stream and nothing after it. -/
theorem query_accepts_trailing_garbage :
    Spec.wellFormed "\x7b\"response\":\"ok\"\x7d trailing garbage".data = none ∧
    (Query (serverReturning 200 "\x7b\"response\":\"ok\"\x7d trailing garbage")
        (New "http://localhost:11434" "llama2") "What's the weather?").outcome =
      .returned (some [("response".data, .string "ok".data)]) none :=
  ⟨rfl, rfl⟩

/-- A response stream that breaks off with a read error gives that read
error, not an error of the decoder: the amended claim C3 is about bodies
that are delivered whole. -/
theorem query_read_error_on_cut_stream :
    (Query (serverCutOff 200 "\x7b\"response\":\"It's su" .timeout)
        (New "http://localhost:11434" "llama2") "What's the weather?").outcome =
      .returned none (some (.bodyRead .timeout)) ∧
    (Query (serverReturning 200 "\x7b\"response\":\"It's su")
        (New "http://localhost:11434" "llama2") "What's the weather?").outcome =
      .returned none (some (.decode .unexpectedEOF)) :=
  ⟨rfl, rfl⟩

/-- The body `null` followed by garbage gives a nil mapping and no error:
the amended claim C3 leaves out the bodies that begin with `null`. -/
theorem query_accepts_null_with_garbage :
    Spec.wellFormed "null trailing garbage".data = none ∧
    (Query (serverReturning 200 "null trailing garbage")
        (New "http://localhost:11434" "llama2") "What's the weather?").outcome =
      .returned none none :=
  ⟨rfl, rfl⟩

/-- C3, amended: for every response body, delivered whole, that does not
begin (after white space) with `null` or with a complete JSON object nested
at most 10000 deep (so: the empty body, a body whose first value is
malformed or cut short, a body whose first value is an array, a string, a
number or a boolean, with or without text after it), `Query` returns a nil
mapping and an error of the decoder, and the response stream is closed
exactly once.  The error is `EOF` for a blank body, and for a first value
that is scanned it is the type error for the kind of that value. -/
theorem query_decode_error (net : Network) (c : OllamaClient) (p : String)
    (req : Request) (resp : Response)
    (hreq : buildRequest net c p = some req)
    (hdo : net.roundTrip req c.Timeout = .ok resp)
    (heof : resp.body.readErr = none)
    (hfirst : ∀ v rest, Spec.firstValue resp.body.data = some (v, rest) →
      v.mapShaped = false) :
    (∃ e, (Query net c p).outcome = .returned none (some (.decode e)) ∧
      (skipSpace resp.body.data = [] → e = .eof) ∧
      (∀ v rest, Spec.firstValue resp.body.data = some (v, rest) →
        v.depth ≤ maxNestingDepth → unmarshalMap v = .error e)) ∧
    (Query net c p).closes = 1 := by
  obtain ⟨e, he, hblank, hkind⟩ := Decode_error resp.body heof hfirst
  have hq := query_of_response net c p req resp hreq hdo
  simp only [he] at hq
  exact ⟨⟨e, by rw [hq], hblank, hkind⟩, by rw [hq]; rfl⟩

/-- C3, witness: the body `[1, 2] trailing garbage`, whose first value is
scanned as an array and refused by its kind. -/
theorem query_decode_error_witness :
    Spec.firstValue "[1, 2] trailing garbage".data =
      some (.array [.number ⟨false, ['1'], [], none, none, []⟩,
        .number ⟨false, ['2'], [], none, none, []⟩], " trailing garbage".data) ∧
    Spec.wellFormed "[1, 2] trailing garbage".data = none ∧
    (Query (serverReturning 200 "[1, 2] trailing garbage")
        (New "http://localhost:11434" "llama2") "What's the weather?").outcome =
      .returned none (some (.decode (.typeMismatch "array".data))) ∧
    ((∃ e, (Query (serverReturning 200 "[1, 2] trailing garbage")
        (New "http://localhost:11434" "llama2") "What's the weather?").outcome =
          .returned none (some (.decode e)) ∧
        (skipSpace "[1, 2] trailing garbage".data = [] → e = .eof) ∧
        (∀ v rest, Spec.firstValue "[1, 2] trailing garbage".data = some (v, rest) →
          v.depth ≤ maxNestingDepth → unmarshalMap v = .error e)) ∧
      (Query (serverReturning 200 "[1, 2] trailing garbage")
        (New "http://localhost:11434" "llama2") "What's the weather?").closes = 1) :=
  ⟨rfl, rfl, rfl,
    query_decode_error (serverReturning 200 "[1, 2] trailing garbage")
      (New "http://localhost:11434" "llama2") "What's the weather?"
      ⟨"POST", "http://localhost:11434/api/completions",
        [("Content-Type", "application/json")],
        "\x7b\"model\":\"llama2\",\"prompt\":\"What's the weather?\"\x7d".data⟩
      ⟨200, ⟨"[1, 2] trailing garbage".data, none⟩⟩ rfl rfl rfl
      (by
        intro v rest h
        have hfv : Spec.firstValue "[1, 2] trailing garbage".data =
            some (.array [.number ⟨false, ['1'], [], none, none, []⟩,
              .number ⟨false, ['2'], [], none, none, []⟩], " trailing garbage".data) := rfl
        rw [show (⟨"[1, 2] trailing garbage".data, none⟩ : Body).data =
          "[1, 2] trailing garbage".data from rfl, hfv] at h
        simp only [Option.some.injEq, Prod.mk.injEq] at h
        rw [← h.1]
        rfl)⟩

/-! ## The client: failure of the round trip, timeout, status code -/

/-- The budget `Decode` allots to the scanner is never used up. -/
theorem decode_budget_suffices (lim : Option Nat) (data : List Char) :
    parseValue lim (2 * data.length + 1) 0 data ≠ .error .exhausted :=
  (parse_not_exhausted lim _).1 0 data (by omega)

/-- C4, failing input: the client with the base URL
`"http://ollama\t.local:11434"` (a tab in the host), on a network that
refuses every connection.  The request is nil for the same reason as in C1
(the error of `http.NewRequest` is discarded at line 24), and `Query` panics
at line 25, before `client.Do`: this call of `Query` makes no outbound
request and returns no error, on this and on every other network, where the
claim has exactly one request per call. -/
theorem query_sends_nothing_on_bad_url :
    (Query (unreachable .connectionRefused)
        ⟨"http://ollama\t.local:11434", "llama2", 5 * Second⟩ "hello").requests.length = 0 ∧
    (Query (unreachable .connectionRefused)
        ⟨"http://ollama\t.local:11434", "llama2", 5 * Second⟩ "hello").outcome = .panicked ∧
    ∀ net : Network,
      (Query net ⟨"http://ollama\t.local:11434", "llama2", 5 * Second⟩
          "hello").requests.length = 0 :=
  ⟨rfl, rfl, fun _ => rfl⟩

/-- The failure of the round trip where `http.NewRequest` succeeds: for
every client whose URL string is accepted by `url.Parse` and every prompt,
when `client.Do` fails (connection refused, DNS failure, TLS failure,
timeout or any other cause), `Query` returns a nil mapping and the
round-trip error that wraps the transport's cause, without decoding
anything and without a second call of `client.Do`; and whatever `client.Do`
returns, it is called once per call of `Query`. -/
theorem query_round_trip_failure (net : Network) (c : OllamaClient) (p : String)
    (h : urlParses net (c.BaseURL ++ "/api/completions") = true) :
    (∀ req cause, buildRequest net c p = some req →
      net.roundTrip req c.Timeout = .error cause →
        (Query net c p).outcome = .returned none (some (.roundTrip cause)) ∧
        (Query net c p).decodes = 0 ∧
        (Query net c p).closes = 0 ∧
        (Query net c p).requests = [(req, c.Timeout)]) ∧
    (Query net c p).requests.length = 1 := by
  have hb := buildRequest_of_urlParses net c p h
  refine ⟨?_, ?_⟩
  · intro req cause hreq hdo
    have hq : Query net c p =
        ⟨.returned none (some (.roundTrip cause)), [.httpDo req c.Timeout]⟩ := by
      simp only [Query, hreq, hdo]
    rw [hq]
    exact ⟨rfl, rfl, rfl, rfl⟩
  · rw [query_of_request net c p _ hb]
    rfl

/-- A connection that is refused, where the base URL parses. -/
theorem query_round_trip_failure_witness :
    (Query (unreachable .connectionRefused) (New "http://localhost:11434" "llama2")
        "What's the weather?").outcome =
      .returned none (some (.roundTrip .connectionRefused)) ∧
    (Query (unreachable .connectionRefused) (New "http://localhost:11434" "llama2")
        "What's the weather?").requests.length = 1 :=
  ⟨((query_round_trip_failure (unreachable .connectionRefused)
      (New "http://localhost:11434" "llama2") "What's the weather?" rfl).1
      ⟨"POST", "http://localhost:11434/api/completions", [("Content-Type", "application/json")],
        "\x7b\"model\":\"llama2\",\"prompt\":\"What's the weather?\"\x7d".data⟩
      .connectionRefused rfl rfl).1,
   (query_round_trip_failure (unreachable .connectionRefused)
      (New "http://localhost:11434" "llama2") "What's the weather?" rfl).2⟩

/-- C5: `New` fills in the base URL, the model and a timeout of exactly five
seconds; every round trip `Query` performs runs under the `Timeout` of its
client, so on a client built by `New` it runs under five seconds. -/
theorem query_uses_client_timeout :
    (∀ baseURL model : String,
      (New baseURL model).BaseURL = baseURL ∧ (New baseURL model).Model = model ∧
      (New baseURL model).Timeout = 5 * Second ∧ 5 * Second = 5000000000) ∧
    (∀ (net : Network) (c : OllamaClient) (p : String) (req : Request) (t : Int),
      (req, t) ∈ (Query net c p).requests → t = c.Timeout) ∧
    (∀ (net : Network) (baseURL model p : String) (req : Request) (t : Int),
      (req, t) ∈ (Query net (New baseURL model) p).requests → t = 5 * Second) := by
  have key : ∀ (net : Network) (c : OllamaClient) (p : String) (req : Request) (t : Int),
      (req, t) ∈ (Query net c p).requests → t = c.Timeout := by
    intro net c p req t hmem
    cases hb : buildRequest net c p with
    | none =>
      have : (Query net c p).requests = [] := by simp [Query, hb, Run.requests]
      rw [this] at hmem
      simp at hmem
    | some r =>
      rw [query_of_request net c p r hb] at hmem
      simp only [List.mem_singleton, Prod.mk.injEq] at hmem
      exact hmem.2
  refine ⟨fun baseURL model => ⟨rfl, rfl, rfl, by decide⟩, key, ?_⟩
  intro net baseURL model p req t hmem
  exact key net (New baseURL model) p req t hmem

/-- C5, witness: the round trip of a client built by `New`. -/
theorem query_uses_client_timeout_witness :
    ((⟨"POST", "http://localhost:11434/api/completions",
        [("Content-Type", "application/json")],
        "\x7b\"model\":\"llama2\",\"prompt\":\"hi\"\x7d".data⟩ : Request), (5000000000 : Int)) ∈
      (Query (serverReturning 200 "") (New "http://localhost:11434" "llama2") "hi").requests ∧
    (5000000000 : Int) = 5 * Second :=
  ⟨List.Mem.head _,
   query_uses_client_timeout.2.2 (serverReturning 200 "") "http://localhost:11434" "llama2" "hi"
    ⟨"POST", "http://localhost:11434/api/completions", [("Content-Type", "application/json")],
      "\x7b\"model\":\"llama2\",\"prompt\":\"hi\"\x7d".data⟩ 5000000000
    (List.Mem.head _)⟩

/-- C10: the result of `Query` does not depend on the status code of the
response: replacing the status codes of a network in any way leaves every
run of `Query` as it is, and two responses with the same body and any two
status codes give the same run; so the body `{"error":"overloaded"}` gives
the same mapping and no error under the status 200 and under the status
500. -/
theorem query_ignores_status_code :
    (∀ (net : Network) (f : Nat → Nat) (c : OllamaClient) (p : String),
      Query (net.mapStatus f) c p = Query net c p) ∧
    (∀ (accepted : String → Bool) (status1 status2 : Nat) (body : Body) (c : OllamaClient)
        (p : String),
      Query ⟨accepted, fun _ _ => .ok ⟨status1, body⟩⟩ c p =
        Query ⟨accepted, fun _ _ => .ok ⟨status2, body⟩⟩ c p) ∧
    (Query (serverReturning 500 "\x7b\"error\":\"overloaded\"\x7d")
        (New "http://localhost:11434" "llama2") "hi").outcome =
      .returned (some [("error".data, .string "overloaded".data)]) none ∧
    (Query (serverReturning 200 "\x7b\"error\":\"overloaded\"\x7d")
        (New "http://localhost:11434" "llama2") "hi").outcome =
      .returned (some [("error".data, .string "overloaded".data)]) none := by
  refine ⟨?_, ?_, rfl, rfl⟩
  · intro net f c p
    have hb : buildRequest (net.mapStatus f) c p = buildRequest net c p := rfl
    simp only [Query, hb]
    cases buildRequest net c p with
    | none => rfl
    | some req =>
      simp only [Network.mapStatus]
      cases net.roundTrip req c.Timeout with
      | error e => rfl
      | ok resp => rfl
  · intro accepted status1 status2 body c p
    have hb : buildRequest ⟨accepted, fun _ _ => .ok ⟨status1, body⟩⟩ c p =
        buildRequest ⟨accepted, fun _ _ => .ok ⟨status2, body⟩⟩ c p := rfl
    simp only [Query, hb]

/-! ## The detection callback and the loop -/

/-- C6: in every call of the detection callback, whatever the transcriber
and the LLM client return, the transcriber is called exactly once and before
any other collaborator; if it fails the LLM client is not called and no
response is displayed; otherwise the LLM client is called exactly once, with
exactly the transcribed text; if that call fails no response is displayed;
otherwise the response is displayed exactly once, after the query. -/
theorem onWakeWord_pipeline {E R : Type} (c : Cycle E R) :
    (countEvents MainEvent.isTranscribe (onWakeWord c) = 1 ∧
      ∃ rest, onWakeWord c = .printWake :: .transcribe :: rest) ∧
    (∀ e, c.transcription = .error e →
      onWakeWord c = [.printWake, .transcribe, .logTranscriptionError e] ∧
      countEvents MainEvent.isQuery (onWakeWord c) = 0 ∧
      countEvents MainEvent.isResponse (onWakeWord c) = 0) ∧
    (∀ text e, c.transcription = .ok text → c.respond text = .error e →
      onWakeWord c =
        [.printWake, .transcribe, .printTranscription text, .query text, .logLLMError e] ∧
      countEvents MainEvent.isQuery (onWakeWord c) = 1 ∧
      countEvents MainEvent.isResponse (onWakeWord c) = 0) ∧
    (∀ text r, c.transcription = .ok text → c.respond text = .ok r →
      onWakeWord c =
        [.printWake, .transcribe, .printTranscription text, .query text, .printResponse r] ∧
      countEvents MainEvent.isQuery (onWakeWord c) = 1 ∧
      countEvents MainEvent.isResponse (onWakeWord c) = 1) := by
  refine ⟨⟨?_, _, rfl⟩, ?_, ?_, ?_⟩
  · simp only [onWakeWord]
    cases c.transcription with
    | error e => rfl
    | ok text =>
      simp only
      cases c.respond text <;> rfl
  · intro e he
    have h : onWakeWord c = [.printWake, .transcribe, .logTranscriptionError e] := by
      simp only [onWakeWord, he]
    rw [h]
    exact ⟨rfl, rfl, rfl⟩
  · intro text e ht hr
    have h : onWakeWord c =
        [.printWake, .transcribe, .printTranscription text, .query text, .logLLMError e] := by
      simp only [onWakeWord, ht, hr]
    rw [h]
    exact ⟨rfl, rfl, rfl⟩
  · intro text r ht hr
    have h : onWakeWord c =
        [.printWake, .transcribe, .printTranscription text, .query text, .printResponse r] := by
      simp only [onWakeWord, ht, hr]
    rw [h]
    exact ⟨rfl, rfl, rfl⟩

/-- C6, witness: a transcriber that hears `hello` and a client that echoes
its prompt. -/
theorem onWakeWord_pipeline_witness :
    onWakeWord (⟨.ok "hello", fun prompt => .ok prompt⟩ : Cycle String String) =
      [.printWake, .transcribe, .printTranscription "hello", .query "hello",
        .printResponse "hello"] :=
  ((onWakeWord_pipeline (⟨.ok "hello", fun prompt => .ok prompt⟩ : Cycle String String)).2.2.2
    "hello" "hello" rfl rfl).1

/-- The callback performs none of the statements of the loop around it. -/
theorem onWakeWord_not_loopEvent {E R : Type} (c : Cycle E R) :
    ∀ ev ∈ onWakeWord c, ev.isLoopEvent = false := by
  intro ev hev
  simp only [onWakeWord] at hev
  cases ht : c.transcription with
  | error e =>
    simp only [ht, List.mem_cons, List.mem_singleton, List.not_mem_nil, or_false] at hev
    rcases hev with rfl | rfl | rfl <;> rfl
  | ok text =>
    simp only [ht] at hev
    cases hr : c.respond text with
    | error e =>
      simp only [hr, List.mem_cons, List.mem_singleton, List.not_mem_nil, or_false] at hev
      rcases hev with rfl | rfl | rfl | rfl | rfl <;> rfl
    | ok r =>
      simp only [hr, List.mem_cons, List.mem_singleton, List.not_mem_nil, or_false] at hev
      rcases hev with rfl | rfl | rfl | rfl | rfl <;> rfl

/-- The same for the callbacks of a stay of the listener. -/
theorem detections_not_loopEvent {E R : Type} (cs : List (Cycle E R)) :
    ∀ ev ∈ detections cs, ev.isLoopEvent = false := by
  induction cs with
  | nil => intro ev hev; simp [detections] at hev
  | cons c cs ih =>
    intro ev hev
    simp only [detections, List.mem_append] at hev
    rcases hev with h | h
    · exact onWakeWord_not_loopEvent c ev h
    · exact ih ev h

/-- A trace without an error return satisfies `Backoff`. -/
theorem backoff_of_no_errorReturn {E R : Type} (t : List (MainEvent E R))
    (h : ∀ ev ∈ t, ev.isErrorReturn = false) : Backoff t := by
  intro pre post e ht
  have hmem : (MainEvent.listenReturned (some e) : MainEvent E R) ∈ t := by
    rw [ht]; simp
  have := h _ hmem
  simp [MainEvent.isErrorReturn] at this

/-- `Backoff` is kept by the concatenation of traces. -/
theorem backoff_append {E R : Type} (a b : List (MainEvent E R))
    (ha : Backoff a) (hb : Backoff b) : Backoff (a ++ b) := by
  intro pre post e h
  rcases List.append_eq_append_iff.mp h with ⟨a', hpre, hb'⟩ | ⟨c', ha', hpost⟩
  · obtain ⟨post', hp⟩ := hb a' post e hb'
    exact ⟨post', hp⟩
  · cases c' with
    | nil =>
      simp only [List.nil_append] at hpost
      simp only [List.append_nil] at ha'
      obtain ⟨post', hp⟩ := hb [] post e (by simpa using hpost.symm)
      exact ⟨post', hp⟩
    | cons x c'' =>
      simp only [List.cons_append, List.cons.injEq] at hpost
      obtain ⟨hx, hpost'⟩ := hpost
      obtain ⟨post', hp⟩ := ha pre c'' e (by rw [ha', ← hx])
      exact ⟨post' ++ b, by rw [hpost', hp]; simp⟩

/-- The statements from the return of the listener to its next call satisfy
`Backoff`. -/
theorem backoff_return {E R : Type} (r : Option E) :
    Backoff (.listenReturned r :: (afterReturn r ++ [.listen]) : List (MainEvent E R)) := by
  intro pre post e h
  cases pre with
  | nil =>
    simp only [List.nil_append, List.cons.injEq, MainEvent.listenReturned.injEq] at h
    obtain ⟨hr, hpost⟩ := h
    subst hr
    exact ⟨[], by rw [← hpost]; rfl⟩
  | cons x pre' =>
    simp only [List.cons_append, List.cons.injEq] at h
    obtain ⟨_, htail⟩ := h
    have hmem : (MainEvent.listenReturned (some e) : MainEvent E R) ∈
        afterReturn r ++ [.listen] := by
      rw [htail]; simp
    cases r <;> simp [afterReturn] at hmem

/-- One more round of the loop. -/
theorem loopTrace_succ {E R : Type} (w : Nat → Session E R) (n : Nat) :
    loopTrace w (n + 1) = loopTrace w n ++ (detections (w n).cycles ++
      .listenReturned (w n).result :: (afterReturn (w n).result ++ [.listen])) := rfl

/-- The trace of the goroutine is the body of its loop, round after round,
and then the call of the listener of the round that follows. -/
theorem loopTrace_rounds {E R : Type} (w : Nat → Session E R) (n : Nat) :
    loopTrace w n = ((List.range n).map fun i => iteration (w i)).flatten ++ [.listen] := by
  induction n with
  | zero => rfl
  | succ n ih =>
    rw [loopTrace_succ, ih, List.range_succ]
    simp [iteration]

/-- Every trace of the loop satisfies `Backoff`. -/
theorem backoff_loopTrace {E R : Type} (w : Nat → Session E R) (n : Nat) :
    Backoff (loopTrace w n) := by
  induction n with
  | zero =>
    apply backoff_of_no_errorReturn
    intro ev hev
    simp only [loopTrace, List.mem_singleton] at hev
    rw [hev]; rfl
  | succ n ih =>
    rw [loopTrace_succ]
    refine backoff_append _ _ ih (backoff_append _ _ ?_ (backoff_return _))
    apply backoff_of_no_errorReturn
    intro ev hev
    have := detections_not_loopEvent _ ev hev
    cases ev <;> simp_all [MainEvent.isLoopEvent, MainEvent.isErrorReturn]

/-- Counting in a concatenation. -/
theorem countEvents_append {α : Type} (p : α → Bool) (a b : List α) :
    countEvents p (a ++ b) = countEvents p a + countEvents p b := by
  simp [countEvents]

/-- The callbacks hold no event of the loop. -/
theorem countEvents_detections {E R : Type} (p : MainEvent E R → Bool)
    (hp : ∀ ev, p ev = true → ev.isLoopEvent = true) (cs : List (Cycle E R)) :
    countEvents p (detections cs) = 0 := by
  simp only [countEvents, List.length_eq_zero, List.filter_eq_nil_iff]
  intro ev hev hpe
  have h1 := detections_not_loopEvent cs ev hev
  have h2 := hp ev hpe
  rw [h1] at h2
  exact Bool.noConfusion h2

/-- After `n` returns of the listener: `n + 1` calls of it and `n` sleeps. -/
theorem loopTrace_counts {E R : Type} (w : Nat → Session E R) (n : Nat) :
    countEvents MainEvent.isListen (loopTrace w n) = n + 1 ∧
    countEvents MainEvent.isSleep (loopTrace w n) = n := by
  induction n with
  | zero => exact ⟨rfl, rfl⟩
  | succ n ih =>
    rw [loopTrace_succ, countEvents_append, countEvents_append, countEvents_append,
      countEvents_append, ih.1, ih.2,
      countEvents_detections MainEvent.isListen (by intro ev h; cases ev <;> simp_all [MainEvent.isListen, MainEvent.isLoopEvent]),
      countEvents_detections MainEvent.isSleep (by intro ev h; cases ev <;> simp_all [MainEvent.isSleep, MainEvent.isLoopEvent])]
    cases (w n).result <;> simp [afterReturn, countEvents, MainEvent.isListen, MainEvent.isSleep]

/-- Every sleep of the loop lasts one second. -/
theorem loopTrace_sleeps {E R : Type} (w : Nat → Session E R) (n : Nat) :
    ∀ d, (MainEvent.sleep d : MainEvent E R) ∈ loopTrace w n → d = 1000000000 := by
  induction n with
  | zero => intro d h; simp [loopTrace] at h
  | succ n ih =>
    intro d h
    rw [loopTrace_succ] at h
    simp only [List.mem_append, List.mem_cons, List.mem_singleton] at h
    rcases h with h | h | h | h | h
    · exact ih d h
    · have := detections_not_loopEvent _ _ h
      simp [MainEvent.isLoopEvent] at this
    · simp at h
    · cases hr : (w n).result with
      | none => simp [hr, afterReturn, Second] at h; exact h
      | some e => simp [hr, afterReturn, Second] at h; exact h
    · simp at h

/-- C7: in the detection loop, every return of the listener with an error is
directly followed by the log of that error, then one sleep of exactly one
second, then one call of the listener, so no call of the listener comes
before the sleep; after any number `n` of returns the loop has slept `n`
times, for one second each time, and has entered the listener `n + 1`
times. -/
theorem loop_backoff_after_listener_error {E R : Type} (w : Nat → Session E R) (n : Nat) :
    (∀ pre post e, loopTrace w n = pre ++ .listenReturned (some e) :: post →
      ∃ post', post = .logListenerError e :: .sleep 1000000000 :: .listen :: post') ∧
    countEvents MainEvent.isSleep (loopTrace w n) = n ∧
    countEvents MainEvent.isListen (loopTrace w n) = n + 1 ∧
    (∀ d, (MainEvent.sleep d : MainEvent E R) ∈ loopTrace w n → d = 1000000000) ∧
    1 * Second = 1000000000 :=
  ⟨backoff_loopTrace w n, (loopTrace_counts w n).2, (loopTrace_counts w n).1,
    loopTrace_sleeps w n, by decide⟩

/-- C7, witness: a listener that fails twice in a row. -/
theorem loop_backoff_after_listener_error_witness :
    loopTrace (fun _ => (⟨[], some "no microphone"⟩ : Session String String)) 2 =
      [.listen, .listenReturned (some "no microphone")] ++
        (.logListenerError "no microphone" :: .sleep 1000000000 :: .listen ::
          [.listenReturned (some "no microphone"), .logListenerError "no microphone",
            .sleep 1000000000, .listen]) ∧
    ∃ post', [.logListenerError "no microphone", .sleep 1000000000, .listen,
        .listenReturned (some "no microphone"), .logListenerError "no microphone",
        .sleep 1000000000, .listen] =
      (.logListenerError "no microphone" :: .sleep 1000000000 :: .listen :: post' :
        List (MainEvent String String)) :=
  ⟨rfl, (loop_backoff_after_listener_error
    (fun _ => (⟨[], some "no microphone"⟩ : Session String String)) 2).1
    [.listen] _ "no microphone" rfl⟩

/-- The callbacks of detections in a row. -/
theorem detections_append {E R : Type} (a b : List (Cycle E R)) :
    detections (a ++ b) = detections a ++ detections b := by
  induction a with
  | nil => rfl
  | cons c cs ih => simp [detections, ih]

/-- The trace of a later round holds the callbacks of every earlier stay of
the listener. -/
theorem loopTrace_extends {E R : Type} (w : Nat → Session E R) (i n : Nat) (h : i < n) :
    ∃ post, loopTrace w n = loopTrace w i ++ (detections (w i).cycles ++ post) := by
  induction n with
  | zero => omega
  | succ n ih =>
    rw [loopTrace_succ]
    by_cases hi : i = n
    · subst hi
      exact ⟨_, rfl⟩
    · obtain ⟨post, hpost⟩ := ih (by omega)
      rw [hpost]
      exact ⟨post ++ (detections (w n).cycles ++
        .listenReturned (w n).result :: (afterReturn (w n).result ++ [.listen])), by simp⟩

/-- C8: no error of the listener, the transcriber or the LLM client ends the
detection loop.  After every return of the listener, with whatever result,
the loop goes on and is back in the listener; the callback runs to its end
for every combination of collaborator results, its last statement being the
log of an error or the display of the response; and a detection whose own
collaborators succeed runs the full pipeline (transcribe, query, display),
whatever detections and stays of the listener failed before it. -/
theorem loop_never_ends {E R : Type} (w : Nat → Session E R) :
    (∀ n, ∃ more, more ≠ [] ∧ loopTrace w (n + 1) = loopTrace w n ++ more) ∧
    (∀ n, ∃ before, loopTrace w n = before ++ [.listen]) ∧
    (∀ c : Cycle E R,
      (∃ e, onWakeWord c = [.printWake, .transcribe, .logTranscriptionError e]) ∨
      (∃ text e, onWakeWord c =
        [.printWake, .transcribe, .printTranscription text, .query text, .logLLMError e]) ∨
      (∃ text r, onWakeWord c =
        [.printWake, .transcribe, .printTranscription text, .query text, .printResponse r])) ∧
    (∀ n i earlier c later text r, i < n → (w i).cycles = earlier ++ c :: later →
      c.transcription = .ok text → c.respond text = .ok r →
      ∃ pre post, loopTrace w n = pre ++
        [.printWake, .transcribe, .printTranscription text, .query text, .printResponse r]
          ++ post) := by
  refine ⟨?_, ?_, ?_, ?_⟩
  · intro n
    exact ⟨_, by simp, loopTrace_succ w n⟩
  · intro n
    cases n with
    | zero => exact ⟨[], rfl⟩
    | succ n =>
      rw [loopTrace_succ]
      exact ⟨loopTrace w n ++ (detections (w n).cycles ++
        .listenReturned (w n).result :: afterReturn (w n).result), by simp⟩
  · intro c
    cases ht : c.transcription with
    | error e => exact Or.inl ⟨e, by simp only [onWakeWord, ht]⟩
    | ok text =>
      cases hr : c.respond text with
      | error e => exact Or.inr (Or.inl ⟨text, e, by simp only [onWakeWord, ht, hr]⟩)
      | ok r => exact Or.inr (Or.inr ⟨text, r, by simp only [onWakeWord, ht, hr]⟩)
  · intro n i earlier c later text r hi hc ht hr
    obtain ⟨post, hpost⟩ := loopTrace_extends w i n hi
    have hcyc : onWakeWord c =
        [.printWake, .transcribe, .printTranscription text, .query text, .printResponse r] := by
      simp only [onWakeWord, ht, hr]
    refine ⟨loopTrace w i ++ detections earlier, detections later ++ post, ?_⟩
    rw [hpost, hc, detections_append]
    simp only [detections, hcyc]
    simp

/-- C8, witness: a stay of the listener in which a detection with a failing
transcriber is followed by a detection that succeeds, after a stay that
ended in an error. -/
theorem loop_never_ends_witness :
    ∃ pre post,
      loopTrace (fun i => if i = 0 then (⟨[], some "no microphone"⟩ : Session String String)
        else ⟨[⟨.error "noise", fun p => .ok p⟩, ⟨.ok "hello", fun p => .ok p⟩], none⟩) 2 =
      pre ++ [.printWake, .transcribe, .printTranscription "hello", .query "hello",
        .printResponse "hello"] ++ post :=
  (loop_never_ends (fun i => if i = 0 then (⟨[], some "no microphone"⟩ : Session String String)
      else ⟨[⟨.error "noise", fun p => .ok p⟩, ⟨.ok "hello", fun p => .ok p⟩], none⟩)).2.2.2
    2 1 [⟨.error "noise", fun p => .ok p⟩] ⟨.ok "hello", fun p => .ok p⟩ [] "hello" "hello"
    (by decide) rfl rfl rfl

/-! ## The wake-word listener -/

/-- The `for` loop of `DetectWakeWord` neither creates nor releases an
instance. -/
theorem processLoop_not_lifecycle {E : Type} (env : WakeEnv E) (fuel : Nat) :
    ∀ frame, ∀ ev ∈ (processLoop env fuel frame).2, ev.isLifecycle = false := by
  induction fuel with
  | zero => intro frame ev hev; simp [processLoop] at hev
  | succ n ih =>
    intro frame ev hev
    simp only [processLoop] at hev
    cases hp : env.process frame with
    | error e =>
      simp only [hp, List.mem_singleton] at hev
      rw [hev]; rfl
    | ok detected =>
      simp only [hp, List.mem_cons, List.mem_append] at hev
      rcases hev with h | h | h
      · rw [h]; rfl
      · cases detected <;> simp at h
        rw [h]; rfl
      · exact ih _ _ h

/-- Events that are no creation and no release leave the live instances as
they are. -/
theorem liveAfter_of_not_lifecycle (t : List WakeEvent)
    (h : ∀ ev ∈ t, ev.isLifecycle = false) : ∀ live, liveAfter live t = live := by
  induction t with
  | nil => intro live; rfl
  | cons ev t ih =>
    intro live
    have hev := h ev (by simp)
    have ht := ih (fun e he => h e (by simp [he]))
    cases ev <;> simp_all [liveAfter, WakeEvent.isLifecycle]

/-- The live instances after one trace and then another. -/
theorem liveAfter_append (a b : List WakeEvent) :
    ∀ live, liveAfter live (a ++ b) = liveAfter (liveAfter live a) b := by
  induction a with
  | nil => intro live; rfl
  | cons ev a ih =>
    intro live
    cases ev <;> simp [liveAfter, ih]

/-- The `for` loop returns the error of the first frame that fails, given
the frames to reach it. -/
theorem processLoop_returns {E : Type} (env : WakeEnv E) (e : E) (k : Nat) :
    ∀ fuel frame, k < fuel → (∀ i, i < k → ∃ b, env.process (frame + i) = .ok b) →
      env.process (frame + k) = .error e → (processLoop env fuel frame).1 = some e := by
  induction k with
  | zero =>
    intro fuel frame hf _ he
    cases fuel with
    | zero => omega
    | succ n =>
      simp only [Nat.add_zero] at he
      simp [processLoop, he]
  | succ k ih =>
    intro fuel frame hf hok he
    cases fuel with
    | zero => omega
    | succ n =>
      obtain ⟨b, hb⟩ := hok 0 (by omega)
      simp only [Nat.add_zero] at hb
      simp only [processLoop, hb]
      apply ih n (frame + 1) (by omega)
      · intro i hi
        have := hok (i + 1) (by omega)
        rwa [show frame + (i + 1) = frame + 1 + i by omega] at this
      · rwa [show frame + (k + 1) = frame + 1 + k by omega] at he

/-- The instances alive after a run: the one it created, if any, on top of
those alive before. -/
theorem liveAfter_detect {E : Type} (env : WakeEnv E) (fuel : Nat) (live : List Nat) :
    (∀ h, WakeEvent.create h ∈ (DetectWakeWord env fuel).2 →
      liveAfter live (DetectWakeWord env fuel).2 = h :: live) ∧
    ((∀ h, WakeEvent.create h ∉ (DetectWakeWord env fuel).2) →
      liveAfter live (DetectWakeWord env fuel).2 = live) ∧
    (∀ h, WakeEvent.release h ∉ (DetectWakeWord env fuel).2) := by
  simp only [DetectWakeWord]
  cases hl : env.loadEnv with
  | some e => simp [liveAfter]
  | none =>
    cases hn : env.newPorcupine env.accessKey with
    | error e => simp [liveAfter]
    | ok h0 =>
      have hloop := processLoop_not_lifecycle env fuel 0
      have hlive := liveAfter_of_not_lifecycle _ hloop
      refine ⟨?_, ?_, ?_⟩
      · intro h hmem
        simp only [List.mem_cons, WakeEvent.create.injEq, false_or, reduceCtorEq] at hmem
        rcases hmem with hh | hmem
        · simp [liveAfter, hlive, hh]
        · have := hloop _ hmem
          simp [WakeEvent.isLifecycle] at this
      · intro hno
        exact absurd (by simp) (hno h0)
      · intro h hmem
        simp only [List.mem_cons, false_or, reduceCtorEq] at hmem
        have := hloop _ hmem
        simp [WakeEvent.isLifecycle] at this

/-- Each run that creates an instance and returns adds one live instance. -/
theorem restarts_live {E : Type} (fuel : Nat) (envs : List (WakeEnv E)) :
    (∀ env ∈ envs, (DetectWakeWord env fuel).1.isSome = true ∧
      ∃ h, WakeEvent.create h ∈ (DetectWakeWord env fuel).2) →
    ∀ live, (liveAfter live (restarts fuel envs)).length = live.length + envs.length := by
  induction envs with
  | nil => intro _ live; simp [restarts, liveAfter]
  | cons env envs ih =>
    intro h live
    obtain ⟨hret, h0, hcreate⟩ := h env (by simp)
    have hrest := ih (fun e he => h e (by simp [he]))
    simp only [restarts]
    cases hr : (DetectWakeWord env fuel).1 with
    | none => simp [hr] at hret
    | some err =>
      simp only [liveAfter_append, (liveAfter_detect env fuel live).1 h0 hcreate, hrest,
        List.length_cons]
      omega

/-- C9, counterexample: a run that creates the instance 1 and fails on its
first frame returns with that instance still alive, and three such runs in a
row leave three instances alive. -/
theorem detectWakeWord_leaks_instance :
    DetectWakeWord (deadMicrophone 1) 1 =
      (some (.engine "audio device lost"), [.loadEnv, .getenv, .create 1, .process 0]) ∧
    liveAfter [] (DetectWakeWord (deadMicrophone 1) 1).2 = [1] ∧
    liveAfter [] (restarts 1 [deadMicrophone 1, deadMicrophone 2, deadMicrophone 3]) =
      [3, 2, 1] :=
  ⟨rfl, rfl, rfl⟩

/-- C9, amended: `DetectWakeWord` never releases an engine instance.  A run
in which the instance is created and `Process` fails on some frame returns
that error once the frame is reached, and every run that creates an instance
and returns with an error returns with that instance still alive; so after
`n` such runs, one after the other, `n` instances are alive. -/
theorem detectWakeWord_never_releases {E : Type} (fuel : Nat) :
    (∀ (env : WakeEnv E) h, WakeEvent.release h ∉ (DetectWakeWord env fuel).2) ∧
    (∀ (env : WakeEnv E) h k e, env.loadEnv = none → env.newPorcupine env.accessKey = .ok h →
      (∀ i, i < k → ∃ b, env.process i = .ok b) → env.process k = .error e → k < fuel →
      (DetectWakeWord env fuel).1 = some (.engine e) ∧
      WakeEvent.create h ∈ (DetectWakeWord env fuel).2) ∧
    (∀ (env : WakeEnv E) h, (DetectWakeWord env fuel).1.isSome = true →
      WakeEvent.create h ∈ (DetectWakeWord env fuel).2 →
      liveAfter [] (DetectWakeWord env fuel).2 = [h]) ∧
    (∀ envs : List (WakeEnv E),
      (∀ env ∈ envs, (DetectWakeWord env fuel).1.isSome = true ∧
        ∃ h, WakeEvent.create h ∈ (DetectWakeWord env fuel).2) →
      (liveAfter [] (restarts fuel envs)).length = envs.length) := by
  refine ⟨?_, ?_, ?_, ?_⟩
  · intro env h
    exact (liveAfter_detect env fuel []).2.2 h
  · intro env h k e hl hn hok he hk
    have hloop := processLoop_returns env e k fuel 0 hk
      (by intro i hi; simpa using hok i hi) (by simpa using he)
    simp [DetectWakeWord, hl, hn, hloop]
  · intro env h _ hc
    exact (liveAfter_detect env fuel []).1 h hc
  · intro envs h
    simpa using restarts_live fuel envs h []

/-- C9, witness: a run on a dead microphone. -/
theorem detectWakeWord_never_releases_witness :
    (DetectWakeWord (deadMicrophone 7) 3).1 = some (.engine "audio device lost") ∧
    WakeEvent.create 7 ∈ (DetectWakeWord (deadMicrophone 7) 3).2 ∧
    liveAfter [] (DetectWakeWord (deadMicrophone 7) 3).2 = [7] :=
  ⟨((detectWakeWord_never_releases 3).2.1 (deadMicrophone 7) 7 0 "audio device lost" rfl rfl
      (by intro i hi; omega) rfl (by decide)).1,
   ((detectWakeWord_never_releases 3).2.1 (deadMicrophone 7) 7 0 "audio device lost" rfl rfl
      (by intro i hi; omega) rfl (by decide)).2,
   (detectWakeWord_never_releases 3).2.2.1 (deadMicrophone 7) 7 rfl
      (List.Mem.tail _ (List.Mem.tail _ (List.Mem.head _)))⟩

end Loki
